import Mathlib

/-!
Verification of the scrpr content-extraction pipeline.

Strings manipulated by the Go code are modelled as `List Char` (one entry per
rune).  Each definition below is a direct transcription of the corresponding
Go function from the repository (package processor in
internal/fetcher/user_agent.go and package extractor).
-/

namespace Scrpr

/-- Characters of a Lean string literal, used to transcribe Go string values. -/
def str (s : String) : List Char := s.data

/-- Go unicode.IsSpace on a single rune (Unicode White_Space property). -/
def goIsSpace (c : Char) : Bool :=
  c.toNat = 9 || c.toNat = 10 || c.toNat = 11 || c.toNat = 12 || c.toNat = 13 ||
  c.toNat = 32 || c.toNat = 133 || c.toNat = 160 || c.toNat = 5760 ||
  (8192 ≤ c.toNat && c.toNat ≤ 8202) || c.toNat = 8232 || c.toNat = 8233 ||
  c.toNat = 8239 || c.toNat = 8287 || c.toNat = 12288

/-- Go strings.Contains(s, pat): does pat occur as a contiguous run? -/
def containsSub (pat : List Char) : List Char → Bool
  | [] => decide (pat = [])
  | c :: rest => pat.isPrefixOf (c :: rest) || containsSub pat rest

/-- Go strings.TrimSpace: drop Unicode whitespace from both ends. -/
def goTrim (l : List Char) : List Char :=
  ((l.dropWhile goIsSpace).reverse.dropWhile goIsSpace).reverse

/-- Helper for the splitters: prepend a character to the first piece. -/
def consHead (c : Char) : List (List Char) → List (List Char)
  | [] => [[c]]
  | p :: ps => (c :: p) :: ps

/-- Go strings.Split(text, "\n"): split at every newline. -/
def splitNl : List Char → List (List Char)
  | [] => [[]]
  | c :: rest =>
    if c = '\n' then [] :: splitNl rest
    else consHead c (splitNl rest)

/-- Go strings.Split(text, "\n\n"): split at every non-overlapping
double-newline, scanning left to right. -/
def splitNN : List Char → List (List Char)
  | [] => [[]]
  | [c] => [[c]]
  | c :: d :: rest =>
    if c = '\n' ∧ d = '\n' then [] :: splitNN rest
    else consHead c (splitNN (d :: rest))

/-- Go strings.Join(pieces, sep). -/
def joinSep (sep : List Char) : List (List Char) → List Char
  | [] => []
  | [x] => x
  | x :: y :: xs => x ++ sep ++ joinSep sep (y :: xs)

/-- Go strings.Contains(s, "  "): does the string hold two adjacent spaces? -/
def hasTwoSp : List Char → Bool
  | [] => false
  | [_] => false
  | c :: d :: rest => (c = ' ' && d = ' ') || hasTwoSp (d :: rest)

/-- Go strings.ReplaceAll(s, "  ", " "): one left-to-right non-overlapping
replacement pass. -/
def replTwoSp : List Char → List Char
  | [] => []
  | [c] => [c]
  | c :: d :: rest =>
    if c = ' ' ∧ d = ' ' then ' ' :: replTwoSp rest
    else c :: replTwoSp (d :: rest)

theorem replTwoSp_length_le : ∀ l : List Char, (replTwoSp l).length ≤ l.length
  | [] => by simp [replTwoSp]
  | [c] => by simp [replTwoSp]
  | c :: d :: rest => by
    by_cases h : c = ' ' ∧ d = ' '
    · simp only [replTwoSp, if_pos h, List.length_cons]
      have := replTwoSp_length_le rest
      omega
    · simp only [replTwoSp, if_neg h, List.length_cons]
      have := replTwoSp_length_le (d :: rest)
      simp only [List.length_cons] at this
      omega

theorem replTwoSp_length_lt : ∀ l : List Char, hasTwoSp l = true →
    (replTwoSp l).length < l.length
  | [], h => by simp [hasTwoSp] at h
  | [c], h => by simp [hasTwoSp] at h
  | c :: d :: rest, h => by
    by_cases hcd : c = ' ' ∧ d = ' '
    · simp only [replTwoSp, if_pos hcd, List.length_cons]
      have := replTwoSp_length_le rest
      omega
    · simp only [replTwoSp, if_neg hcd, List.length_cons]
      have hrec : hasTwoSp (d :: rest) = true := by
        simp only [hasTwoSp, Bool.or_eq_true, Bool.and_eq_true, decide_eq_true_eq] at h
        rcases h with h | h
        · exact absurd h hcd
        · exact h
      have := replTwoSp_length_lt (d :: rest) hrec
      simp only [List.length_cons] at this
      omega

/-- The Go loop `for strings.Contains(result, "  ") { result =
strings.ReplaceAll(result, "  ", " ") }` from CleanNewlines, with an
explicit fuel bound.  Each replacement pass shortens the string
(`replTwoSp_length_lt`), so `l.length` rounds of fuel always reach the
loop's exit condition. -/
def collapseSpacesFuel : Nat → List Char → List Char
  | 0, l => l
  | fuel + 1, l => if hasTwoSp l then collapseSpacesFuel fuel (replTwoSp l) else l

/-- The space-collapsing loop of CleanNewlines. -/
def collapseSpaces (l : List Char) : List Char :=
  collapseSpacesFuel l.length l

/-- Go strings.HasSuffix checks of CleanNewlines: does the previous line end
with sentence-ending punctuation? -/
def endsWithPunct (l : List Char) : Bool :=
  match l.getLast? with
  | some c => c = '.' || c = '!' || c = '?' || c = ':' || c = ';'
  | none => false

/-- CleanNewlines: does the current line start a new sentence (capital
letter, digit, or bullet marker)? -/
def startsNewSentence : List Char → Bool
  | [] => false
  | c :: rest =>
    (decide ('A' ≤ c) && decide (c ≤ 'Z')) || (decide ('0' ≤ c) && decide (c ≤ '9')) ||
    (str "- ").isPrefixOf (c :: rest) || (str "* ").isPrefixOf (c :: rest) ||
    (str "• ").isPrefixOf (c :: rest)

/-- One iteration of the line-joining loop of CleanNewlines.  The Go loop
appends to (and rewrites the last entry of) `cleanedLines`; here the
accumulator holds `cleanedLines` in reverse, so the last entry is its head. -/
def cleanStep (cleanedRev : List (List Char)) (rawLine : List Char) :
    List (List Char) :=
  let line := goTrim rawLine
  if line = [] then cleanedRev
  else
    match cleanedRev with
    | [] => [line]
    | prev :: rest =>
      if endsWithPunct prev = false ∧ startsNewSentence line = false then
        (prev ++ ' ' :: line) :: rest
      else line :: prev :: rest

/-- The per-paragraph line-joining loop of CleanNewlines. -/
def cleanLines (lines : List (List Char)) : List (List Char) :=
  (lines.foldl cleanStep []).reverse

/-- Go strings.ReplaceAll(text, "\r\n", "\n"). -/
def replaceCrLf : List Char → List Char
  | [] => []
  | [c] => [c]
  | c :: d :: rest =>
    if c = '\r' ∧ d = '\n' then '\n' :: replaceCrLf rest
    else c :: replaceCrLf (d :: rest)

/-- Go strings.ReplaceAll(text, "\r", "\n"). -/
def replaceCr (l : List Char) : List Char :=
  l.map fun c => if c = '\r' then '\n' else c

/-- ContentProcessor.CleanNewlines from user_agent.go: normalize line
endings, join lines that break sentences within each paragraph, drop empty
paragraphs, collapse repeated spaces and trim. -/
def CleanNewlines (text : List Char) : List Char :=
  let t := replaceCr (replaceCrLf text)
  let paragraphs := splitNN t
  let cleanedParagraphs := paragraphs.filterMap fun p =>
    let cleanedLines := cleanLines (splitNl p)
    if cleanedLines = [] then none else some (joinSep [ '\n' ] cleanedLines)
  let result := joinSep [ '\n', '\n' ] cleanedParagraphs
  goTrim (collapseSpaces result)

/-- Go strings.Fields: split around runs of Unicode whitespace (helper with
an explicit accumulator for the word being built, kept reversed). -/
def fieldsAux : List Char → List Char → List (List Char)
  | acc, [] => if acc = [] then [] else [acc.reverse]
  | acc, c :: rest =>
    if goIsSpace c then
      if acc = [] then fieldsAux [] rest else acc.reverse :: fieldsAux [] rest
    else fieldsAux (c :: acc) rest

/-- Go strings.Fields. -/
def fields (l : List Char) : List (List Char) := fieldsAux [] l

/-- The inner word loop of ContentProcessor.wrapText: greedy line filling
starting from the first word. -/
def wrapWords (lineWidth : Nat) : List Char → List (List Char) → List Char
  | currentLine, [] => currentLine
  | currentLine, word :: ws =>
    if currentLine.length + 1 + word.length ≤ lineWidth then
      wrapWords lineWidth (currentLine ++ ' ' :: word) ws
    else
      currentLine ++ '\n' :: wrapWords lineWidth word ws

/-- The paragraph loop of ContentProcessor.wrapText: paragraphs after the
first are preceded by a blank line; a paragraph with no words contributes
nothing further. -/
def wrapParas (lineWidth : Nat) (isFirst : Bool) : List (List Char) → List Char
  | [] => []
  | p :: ps =>
    (if isFirst then [] else str "\n\n") ++
    (match fields p with
     | [] => []
     | w :: ws => wrapWords lineWidth w ws) ++
    wrapParas lineWidth false ps

/-- ContentProcessor.wrapText from user_agent.go.  Go `lineWidth <= 0` is
modelled by `lineWidth = 0` since widths are natural numbers. -/
def wrapText (text : List Char) (lineWidth : Nat) : List Char :=
  if lineWidth = 0 then text
  else wrapParas lineWidth true (splitNN text)

/-! ## Extraction backends (package extractor) -/

/-- ExtractResult from interface.go: the backend-agnostic result shape. -/
structure ExtractResult where
  URL : List Char
  Title : List Char
  Content : List Char
deriving DecidableEq, Repr

/-- The line scan of extractJinaField: first line carrying the field label. -/
def firstFieldLine (field : List Char) : List (List Char) → List Char
  | [] => []
  | line :: rest =>
    if field.isPrefixOf line then goTrim (line.drop field.length)
    else firstFieldLine field rest

/-- extractJinaField from the Jina backend: value of the first line that
starts with the given label, trimmed. -/
def extractJinaField (content field : List Char) : List Char :=
  firstFieldLine field (splitNl content)

/-- Go strings.Index followed by slicing: the remainder of the string after
the first occurrence of the pattern, if any. -/
def afterFirst (pat : List Char) : List Char → Option (List Char)
  | [] => if pat = [] then some [] else none
  | c :: rest =>
    if pat.isPrefixOf (c :: rest) then some ((c :: rest).drop pat.length)
    else afterFirst pat rest

/-- The fallback scan of extractJinaMarkdown: first line that looks like a
heading, or a non-empty colon-free line after the fourth, with the line
index threaded through. -/
def jinaFallbackFrom (content : List Char) : Nat → List (List Char) → List Char
  | _, [] => content
  | i, line :: rest =>
    if (str "#").isPrefixOf line ∨
        (3 < i ∧ goTrim line ≠ [] ∧ line.contains ':' = false) then
      joinSep [ '\n' ] (line :: rest)
    else jinaFallbackFrom content (i + 1) rest

/-- extractJinaMarkdown from the Jina backend. -/
def extractJinaMarkdown (content : List Char) : List Char :=
  match afterFirst (str "Markdown Content:") content with
  | some suffix => goTrim suffix
  | none => jinaFallbackFrom content 0 (splitNl content)

/-- The heading-marker loop of stripBasicMarkdown: drop the leading run of
number signs. -/
def dropHashes : List Char → List Char
  | '#' :: rest => dropHashes rest
  | l => l

/-- Go strings.ReplaceAll(s, [a,b], ""): delete every non-overlapping
left-to-right occurrence of a two-character pattern. -/
def replPairDel (a b : Char) : List Char → List Char
  | [] => []
  | [c] => [c]
  | c :: d :: rest =>
    if c = a ∧ d = b then replPairDel a b rest
    else c :: replPairDel a b (d :: rest)

/-- stripBasicMarkdown from the Jina backend: per line, drop heading
markers, trim, and delete bold/underline markers. -/
def stripBasicMarkdown (md : List Char) : List Char :=
  joinSep [ '\n' ] ((splitNl md).map fun line =>
    replPairDel '_' '_' (replPairDel '*' '*' (goTrim (dropHashes line))))

/-- JinaBackend.Extract after a 200 response (part_003 lines 83-103): parse
the labelled-field response body into an ExtractResult. -/
def jinaExtractBody (url format body : List Char) : ExtractResult :=
  let content := body
  let title := extractJinaField content (str "Title:")
  let markdownContent := extractJinaMarkdown content
  let markdownContent := if markdownContent = [] then content else markdownContent
  let finalContent :=
    if format = str "text" then stripBasicMarkdown markdownContent
    else markdownContent
  { URL := url, Title := title, Content := finalContent }

/-- tavilyExtractResult: one entry of the Tavily results array.  The unused
response_time float of the enclosing response is not modelled. -/
structure TavilyResult where
  URL : List Char
  RawContent : List Char
  Title : List Char
deriving DecidableEq, Repr

/-- tavilyExtractResponse (without the unused response_time field). -/
structure TavilyResponse where
  Results : List TavilyResult
  FailedURLs : List (List Char)
deriving DecidableEq, Repr

/-- The error outcomes of TavilyBackend.Extract after a parsed response. -/
inductive TavilyError where
  | extractionFailed (url : List Char)
  | noResults (url : List Char)
deriving DecidableEq, Repr

/-- TavilyBackend.Extract after a successfully parsed 200 response
(part_005 lines 121-140). -/
def tavilyHandleResponse (url format : List Char) (resp : TavilyResponse) :
    Except TavilyError ExtractResult :=
  match resp.Results with
  | [] =>
    if resp.FailedURLs.length > 0 then .error (.extractionFailed url)
    else .error (.noResults url)
  | result :: _ =>
    let content := result.RawContent
    let content :=
      if format = str "markdown" ∧ result.Title ≠ [] then
        str "# " ++ result.Title ++ str "\n\n" ++ content
      else content
    .ok { URL := result.URL, Title := result.Title, Content := content }

/-! ## The parsed-HTML model

goquery operates on a parsed DOM.  The processor's HTML-string fields are
modelled by their parsed form: a list of sibling nodes, each a text node, a
comment node, or an element with a tag, attributes and children. -/

inductive Html where
  | text (s : List Char) : Html
  | comment (s : List Char) : Html
  | elem (tag : List Char) (attrs : List (List Char × List Char))
      (children : List Html) : Html

mutual

/-- goquery Selection.Text of one node: concatenated text nodes, depth
first (comments contribute nothing). -/
def goText : Html → List Char
  | .text s => s
  | .comment _ => []
  | .elem _ _ children => goTextList children

/-- goquery Selection.Text of a node list. -/
def goTextList : List Html → List Char
  | [] => []
  | h :: t => goText h ++ goTextList t

end

/-- goquery Selection.Attr: first binding of the attribute, if present. -/
def getAttr (attrs : List (List Char × List Char)) (name : List Char) :
    Option (List Char) :=
  match attrs.find? (fun p => p.1 == name) with
  | some p => some p.2
  | none => none

/-! ## ContentProcessor.cleanHTML -/

mutual

/-- The `doc.Find("script, style, noscript").Remove()` pass of cleanHTML:
prune every script, style and noscript element. -/
def removeScripts : Html → Option Html
  | .text s => some (.text s)
  | .comment s => some (.comment s)
  | .elem tag attrs children =>
    if tag = str "script" ∨ tag = str "style" ∨ tag = str "noscript" then none
    else some (.elem tag attrs (removeScriptsList children))

def removeScriptsList : List Html → List Html
  | [] => []
  | h :: t =>
    match removeScripts h with
    | none => removeScriptsList t
    | some h2 => h2 :: removeScriptsList t

end

mutual

/-- The comment-removal pass of cleanHTML.  The Go code serializes each
element's inner HTML, strips `&lt;!-- ... --&gt;` runs textually
(removeHTMLComments) and re-parses; its net effect on the document is the
deletion of every comment node, which is what this models. -/
def removeComments : Html → Option Html
  | .text s => some (.text s)
  | .comment _ => none
  | .elem tag attrs children => some (.elem tag attrs (removeCommentsList children))

def removeCommentsList : List Html → List Html
  | [] => []
  | h :: t =>
    match removeComments h with
    | none => removeCommentsList t
    | some h2 => h2 :: removeCommentsList t

end

mutual

/-- The `doc.Find("p, div")` empty-element pass of cleanHTML: a p or div
whose visible text trims to nothing is removed.  goquery iterates a
document-order snapshot, so a parent is examined (with its text intact)
before any of its descendants are removed; removing a descendant later
never empties a parent that had non-whitespace text.  The top-down
recursion below has exactly that effect. -/
def removeEmptyPDiv : Html → Option Html
  | .text s => some (.text s)
  | .comment s => some (.comment s)
  | .elem tag attrs children =>
    if (tag = str "p" ∨ tag = str "div") ∧ goTrim (goTextList children) = [] then none
    else some (.elem tag attrs (removeEmptyPDivList children))

def removeEmptyPDivList : List Html → List Html
  | [] => []
  | h :: t =>
    match removeEmptyPDiv h with
    | none => removeEmptyPDivList t
    | some h2 => h2 :: removeEmptyPDivList t

end

/-- ContentProcessor.cleanHTML from user_agent.go, on the parsed document:
remove scripts/styles/noscript, then comments, then empty paragraphs and
divs.  (Serialization and re-parsing at the string boundary are the
identity on the parsed form.) -/
def cleanHTML (doc : List Html) : List Html :=
  removeEmptyPDivList (removeCommentsList (removeScriptsList doc))

/-! ## ContentProcessor.removeAds -/

/-- The fixed ad-selector list of removeAds.  `attrSub a p` models the CSS
selector `[a*='p']` (attribute value contains the substring), `classTok t`
models `.t` (whitespace-separated class token equals t). -/
inductive AdSelector where
  | attrSub (attr pat : List Char)
  | classTok (tok : List Char)

/-- The adSelectors array of removeAds, in source order. -/
def adSelectors : List AdSelector :=
  [ .attrSub (str "id") (str "ad"), .attrSub (str "class") (str "ad"),
    .attrSub (str "id") (str "advertisement"), .attrSub (str "class") (str "advertisement"),
    .attrSub (str "id") (str "sponsor"), .attrSub (str "class") (str "sponsor"),
    .attrSub (str "id") (str "promo"), .attrSub (str "class") (str "promo"),
    .classTok (str "google-ads"), .classTok (str "adsystem"),
    .classTok (str "ad-container"), .classTok (str "advertisement"),
    .classTok (str "sponsored"), .classTok (str "banner-ad") ]

/-- Does an element's attribute list match one ad selector? -/
def matchesSel (sel : AdSelector) (attrs : List (List Char × List Char)) : Bool :=
  match sel with
  | .attrSub attr pat =>
    match getAttr attrs attr with
    | some v => containsSub pat v
    | none => false
  | .classTok tok =>
    match getAttr attrs (str "class") with
    | some v => (fields v).contains tok
    | none => false

mutual

/-- One `doc.Find(selector).Remove()` pass of removeAds. -/
def removeBySel (sel : AdSelector) : Html → Option Html
  | .text s => some (.text s)
  | .comment s => some (.comment s)
  | .elem tag attrs children =>
    if matchesSel sel attrs then none
    else some (.elem tag attrs (removeBySelList sel children))

def removeBySelList (sel : AdSelector) : List Html → List Html
  | [] => []
  | h :: t =>
    match removeBySel sel h with
    | none => removeBySelList sel t
    | some h2 => h2 :: removeBySelList sel t

end

/-- The ad-related text condition of removeAds: lower-cased visible text
contains "advertisement" or "sponsored content", or contains "ad" while the
trimmed visible text is shorter than 50 characters. -/
def adTextCond (n : Html) : Bool :=
  let text := (goText n).map Char.toLower
  containsSub (str "advertisement") text ||
  containsSub (str "sponsored content") text ||
  (containsSub (str "ad") text && decide ((goTrim (goText n)).length < 50))

mutual

/-- The `doc.Find("*")` text pass of removeAds: every element whose text
matches `adTextCond` is removed.  As with the empty-element pass, the
snapshot iteration makes this a top-down prune. -/
def removeAdText : Html → Option Html
  | .text s => some (.text s)
  | .comment s => some (.comment s)
  | .elem tag attrs children =>
    if adTextCond (.elem tag attrs children) then none
    else some (.elem tag attrs (removeAdTextList children))

def removeAdTextList : List Html → List Html
  | [] => []
  | h :: t =>
    match removeAdText h with
    | none => removeAdTextList t
    | some h2 => h2 :: removeAdTextList t

end

/-- ContentProcessor.removeAds from user_agent.go, on the parsed document:
the fourteen selector passes in order, then the ad-text pass. -/
def removeAds (doc : List Html) : List Html :=
  removeAdTextList (adSelectors.foldl (fun d sel => removeBySelList sel d) doc)

/-! ## Image, link and metadata extraction -/

/-- Link from user_agent.go. -/
structure Link where
  Text : List Char
  URL : List Char
deriving DecidableEq, Repr

mutual

/-- ContentProcessor.extractImages: for every img element in document
order, its non-empty src and data-src attribute values. -/
def extractImagesNode : Html → List (List Char)
  | .text _ => []
  | .comment _ => []
  | .elem tag attrs children =>
    (if tag = str "img" then
      (match getAttr attrs (str "src") with
       | some src => if src ≠ [] then [src] else []
       | none => []) ++
      (match getAttr attrs (str "data-src") with
       | some d => if d ≠ [] then [d] else []
       | none => [])
     else []) ++ extractImagesList children

def extractImagesList : List Html → List (List Char)
  | [] => []
  | h :: t => extractImagesNode h ++ extractImagesList t

end

mutual

/-- ContentProcessor.extractLinks: for every `a[href]` element in document
order with a non-empty href, the pair of its trimmed text (href when the
text is empty) and its href. -/
def extractLinksNode : Html → List Link
  | .text _ => []
  | .comment _ => []
  | .elem tag attrs children =>
    (if tag = str "a" then
      match getAttr attrs (str "href") with
      | some href =>
        if href = [] then []
        else
          let t := goTrim (goTextList children)
          [ { Text := if t = [] then href else t, URL := href } ]
      | none => []
     else []) ++ extractLinksList children

def extractLinksList : List Html → List Link
  | [] => []
  | h :: t => extractLinksNode h ++ extractLinksList t

end

/-- First element (document order) satisfying a tag/attribute predicate:
the element a goquery `Find(...)` single-result accessor would use. -/
def findFirstElem (p : List Char → List (List Char × List Char) → Bool) :
    List Html → Option (List (List Char × List Char))
  | [] => none
  | .elem tag attrs children :: rest =>
    if p tag attrs then some attrs
    else
      match findFirstElem p children with
      | some a => some a
      | none => findFirstElem p rest
  | _ :: rest => findFirstElem p rest

/-- `doc.Find("meta[attrName='prop']").AttrOr("content", "")`. -/
def metaByAttr (doc : List Html) (attrName prop : List Char) : List Char :=
  match findFirstElem
      (fun tag attrs => tag == str "meta" && getAttr attrs attrName == some prop) doc with
  | some attrs => (getAttr attrs (str "content")).getD []
  | none => []

/-- ContentProcessor.findMetaContent: first property with a non-empty
content, name attribute checked before property attribute, trimmed. -/
def findMetaContent (doc : List Html) : List (List Char) → List Char
  | [] => []
  | prop :: rest =>
    let c1 := metaByAttr doc (str "name") prop
    if c1 ≠ [] then goTrim c1
    else
      let c2 := metaByAttr doc (str "property") prop
      if c2 ≠ [] then goTrim c2
      else findMetaContent doc rest

mutual

/-- All elements with the given tag, document order (goquery Find by tag,
starting below the document node, so top-level nodes are included). -/
def findByTagNode (tag : List Char) : Html → List Html
  | .text _ => []
  | .comment _ => []
  | .elem t attrs children =>
    (if t = tag then [Html.elem t attrs children] else []) ++ findByTagList tag children

def findByTagList (tag : List Char) : List Html → List Html
  | [] => []
  | h :: t => findByTagNode tag h ++ findByTagList tag t

end

/-- `doc.Find("title").Text()`: concatenated text of every title element. -/
def titleText (doc : List Html) : List Char :=
  goTextList (findByTagList (str "title") doc)

/-- Replace-or-append update of the metadata map (Go map assignment;
iteration order of the model is insertion order). -/
def setMeta (m : List (List Char × List Char)) (k v : List Char) :
    List (List Char × List Char) :=
  if m.any (fun p => p.1 == k) then
    m.map fun p => if p.1 == k then (k, v) else p
  else m ++ [(k, v)]

/-- One case of the field switch in ContentProcessor.extractMetadata. -/
def extractMetaField (doc : List Html) (m : List (List Char × List Char))
    (field : List Char) : List (List Char × List Char) :=
  if field = str "title" then
    let title := titleText doc
    if title ≠ [] then setMeta m (str "title") (goTrim title) else m
  else if field = str "author" then
    let a := findMetaContent doc [str "author", str "article:author"]
    if a ≠ [] then setMeta m (str "author") a else m
  else if field = str "description" then
    let d := findMetaContent doc [str "description", str "og:description"]
    if d ≠ [] then setMeta m (str "description") d else m
  else if field = str "date" then
    let d := findMetaContent doc [str "article:published_time", str "date", str "pubdate"]
    if d ≠ [] then setMeta m (str "date") d else m
  else if field = str "url" then
    let u := findMetaContent doc [str "og:url", str "canonical"]
    if u ≠ [] then setMeta m (str "url") u
    else
      let canonical :=
        match findFirstElem
            (fun tag attrs => tag == str "link" && getAttr attrs (str "rel") == some (str "canonical")) doc with
        | some attrs => (getAttr attrs (str "href")).getD []
        | none => []
      if canonical ≠ [] then setMeta m (str "url") canonical else m
  else if field = str "image" then
    let i := findMetaContent doc [str "og:image", str "twitter:image"]
    if i ≠ [] then setMeta m (str "image") i else m
  else if field = str "keywords" then
    let k := findMetaContent doc [str "keywords"]
    if k ≠ [] then setMeta m (str "keywords") k else m
  else m

/-- ContentProcessor.extractMetadata. -/
def extractMetadata (doc : List Html) (fieldList : List (List Char)) :
    List (List Char × List Char) :=
  fieldList.foldl (extractMetaField doc) []

/-! ## ContentProcessor.Process -/

/-- ProcessOptions from user_agent.go. -/
structure ProcessOptions where
  RemoveAds : Bool
  CleanHTML : Bool
  MinContentLength : Nat
  IncludeMetadata : Bool
  MetadataFields : List (List Char)

/-- The fields of a readability.Article that Process consumes.  Content is
modelled in parsed form. -/
structure ReadabilityArticle where
  Title : List Char
  Content : List Html
  TextContent : List Char
  Byline : List Char
  Excerpt : List Char
  Length : Nat

/-- ProcessedContent from user_agent.go (Content in parsed form). -/
structure ProcessedContent where
  Title : List Char
  Content : List Html
  TextContent : List Char
  Author : List Char
  Excerpt : List Char
  Byline : List Char
  Length : Nat
  Metadata : List (List Char × List Char)
  Images : List (List Char)
  Links : List Link

/-- The error outcomes of ContentProcessor.Process. -/
inductive ProcessError where
  | contentTooShort (n min : Nat)
  | readabilityFailed
deriving DecidableEq, Repr

/-- ContentProcessor.Process from user_agent.go.  The external
go-readability pass is the `readability` argument and the goquery parse of
the raw input html (used only for metadata) is the `parseHTML` argument;
the parse of article.Content always succeeds in the parsed model.  The url
argument is unused, exactly as in the source. -/
def Process (readability : List Char → Except Unit ReadabilityArticle)
    (parseHTML : List Char → Option (List Html))
    (html : List Char) (url : List Char) (opts : ProcessOptions) :
    Except ProcessError ProcessedContent :=
  if html.length < opts.MinContentLength then
    .error (.contentTooShort html.length opts.MinContentLength)
  else
    match readability html with
    | .error _ => .error .readabilityFailed
    | .ok article =>
      let result : ProcessedContent :=
        { Title := article.Title
          Content := article.Content
          TextContent := CleanNewlines article.TextContent
          Author := article.Byline
          Excerpt := article.Excerpt
          Byline := article.Byline
          Length := article.Length
          Metadata := []
          Images := []
          Links := [] }
      let result := { result with Images := extractImagesList article.Content
                                  Links := extractLinksList article.Content }
      let result :=
        if opts.IncludeMetadata then
          match parseHTML html with
          | some originalDoc =>
            { result with Metadata := extractMetadata originalDoc opts.MetadataFields }
          | none => result
        else result
      let result :=
        if opts.CleanHTML then { result with Content := cleanHTML result.Content }
        else result
      let result :=
        if opts.RemoveAds then { result with Content := removeAds result.Content }
        else result
      .ok result

/-! ## Markdown and text rendering -/

/-- Tag of an element node (empty for text and comment nodes). -/
def htmlTag : Html → List Char
  | .elem t _ _ => t
  | _ => []

/-- Children of an element node. -/
def htmlChildren : Html → List Html
  | .elem _ _ cs => cs
  | _ => []

mutual

/-- Node count of a tree, used as recursion fuel for nested lists. -/
def htmlSize : Html → Nat
  | .text _ => 1
  | .comment _ => 1
  | .elem _ _ cs => 1 + htmlSizeList cs

def htmlSizeList : List Html → Nat
  | [] => 0
  | h :: t => htmlSize h + htmlSizeList t

end

mutual

/-- goquery `Find` over several tag names: matching descendant elements in
document order. -/
def findTagsNode (tags : List (List Char)) : Html → List Html
  | .text _ => []
  | .comment _ => []
  | .elem t attrs children =>
    (if tags.contains t then [Html.elem t attrs children] else []) ++
    findTagsList tags children

def findTagsList (tags : List (List Char)) : List Html → List Html
  | [] => []
  | h :: t => findTagsNode tags h ++ findTagsList tags t

end

/-- ContentProcessor.convertList from user_agent.go: every descendant li of
the selected list element gets an indented marker line with its trimmed
text, then its own descendant lists are rendered one level deeper; a final
newline closes the list.  The Go recursion descends into strict
descendants, so fuel bounded by the node count never runs out. -/
def convertListFuel : Nat → List Html → Bool → Nat → List Char
  | 0, _, _, _ => []
  | fuel + 1, selChildren, ordered, depth =>
    let lis := findTagsList [str "li"] selChildren
    (lis.enum.map fun p =>
      List.replicate (2 * depth) ' ' ++
      (if ordered then (toString (p.1 + 1)).data ++ str ". " else str "- ") ++
      goTrim (goText p.2) ++ [ '\n' ] ++
      ((findTagsList [str "ul", str "ol"] (htmlChildren p.2)).map fun nested =>
        convertListFuel fuel (htmlChildren nested) (htmlTag nested == str "ol")
          (depth + 1)).flatten).flatten ++ [ '\n' ]

mutual

/-- One node of ContentProcessor.convertToMarkdown's switch. -/
def convertNode (preserveLinks : Bool) : Html → List Char
  | .text s => goTrim s
  | .comment _ => []
  | .elem tag0 attrs children =>
    let tagName := tag0.map Char.toLower
    if tagName = str "h1" ∨ tagName = str "h2" ∨ tagName = str "h3" ∨
        tagName = str "h4" ∨ tagName = str "h5" ∨ tagName = str "h6" then
      let level := (tagName.getD 1 '0').toNat - '0'.toNat
      List.replicate level '#' ++ ' ' :: (goTrim (goTextList children) ++ str "\n\n")
    else if tagName = str "p" then
      let inner := goTrim (convertToMarkdown preserveLinks children)
      if inner = [] then [] else inner ++ str "\n\n"
    else if tagName = str "br" then
      [ '\n' ]
    else if tagName = str "a" then
      if preserveLinks then
        match getAttr attrs (str "href") with
        | some href =>
          if href ≠ [] then
            '[' :: (goTextList children ++ ']' :: '(' :: (href ++ [ ')' ]))
          else goTextList children
        | none => goTextList children
      else goTextList children
    else if tagName = str "strong" ∨ tagName = str "b" then
      str "**" ++ goTextList children ++ str "**"
    else if tagName = str "em" ∨ tagName = str "i" then
      str "*" ++ goTextList children ++ str "*"
    else if tagName = str "code" then
      Char.ofNat 96 :: (goTextList children ++ [ Char.ofNat 96 ])
    else if tagName = str "pre" then
      str "```\n" ++ goTextList children ++ str "\n```\n\n"
    else if tagName = str "blockquote" then
      ((splitNl (goTextList children)).map fun line =>
        if goTrim line ≠ [] then str "> " ++ goTrim line ++ [ '\n' ] else []).flatten
      ++ [ '\n' ]
    else if tagName = str "ul" ∨ tagName = str "ol" then
      convertListFuel (htmlSizeList children + 1) children (tagName = str "ol") 0
    else if tagName = str "img" then
      match getAttr attrs (str "src") with
      | some src =>
        str "![" ++ (getAttr attrs (str "alt")).getD [] ++ str "](" ++ src ++ str ")\n\n"
      | none => []
    else
      convertToMarkdown preserveLinks children

/-- ContentProcessor.convertToMarkdown from user_agent.go: walk the
selection's contents, emitting Markdown per node (the md builder is the
returned string). -/
def convertToMarkdown (preserveLinks : Bool) : List Html → List Char
  | [] => []
  | h :: t => convertNode preserveLinks h ++ convertToMarkdown preserveLinks t

end

mutual

/-- goquery serialization of a node (used by ToMarkdown only to test
whether content.Content trims to the empty string; entity escaping, which
never affects that test, is not modelled). -/
def renderHtml : Html → List Char
  | .text s => s
  | .comment s => str "<!--" ++ s ++ str "-->"
  | .elem tag attrs children =>
    '<' :: (tag ++ (attrs.map fun p => ' ' :: (p.1 ++ '=' :: '\x22' :: (p.2 ++ [ '\x22' ]))).flatten
      ++ '>' :: (renderHtmlList children ++ '<' :: '/' :: (tag ++ [ '>' ])))

def renderHtmlList : List Html → List Char
  | [] => []
  | h :: t => renderHtml h ++ renderHtmlList t

end

/-- Go strings.Title, used for metadata labels: uppercase the first letter
of each word (modelled for ASCII letters). -/
def goTitleCaseAux : Bool → List Char → List Char
  | _, [] => []
  | prevIsLetter, c :: rest =>
    (if prevIsLetter then c else c.toUpper) :: goTitleCaseAux c.isAlpha rest

/-- Go strings.Title (ASCII model). -/
def goTitleCase (l : List Char) : List Char := goTitleCaseAux false l

/-- The metadata block of ToMarkdown: author, summary, then the remaining
metadata pairs (Go map iteration order modelled as insertion order). -/
def metadataEntries (content : ProcessedContent) : List Char :=
  (if content.Author ≠ [] then str "**Author:** " ++ content.Author ++ str "\n\n" else []) ++
  (if content.Excerpt ≠ [] then str "**Summary:** " ++ content.Excerpt ++ str "\n\n" else []) ++
  (content.Metadata.map fun p =>
    if p.1 ≠ str "title" then str "**" ++ goTitleCase p.1 ++ str ":** " ++ p.2 ++ str "\n\n"
    else []).flatten

/-- `doc.Find("body")` of ToMarkdown: children of the first body element,
if any. -/
def findFirstBody (doc : List Html) : Option (List Html) :=
  match findByTagList (str "body") doc with
  | .elem _ _ children :: _ => some children
  | _ => none

/-- ContentProcessor.ToMarkdown from user_agent.go.  (The goquery parse of
content.Content cannot fail in the parsed model, so the parse-error
fallback branch does not appear.) -/
def ToMarkdown (content : ProcessedContent) (includeMetadata preserveLinks : Bool) :
    List Char :=
  let md := if content.Title ≠ [] then str "# " ++ content.Title ++ str "\n\n" else []
  let md := if includeMetadata then md ++ metadataEntries content else md
  if content.TextContent ≠ [] ∧ goTrim (renderHtmlList content.Content) = [] then
    md ++ CleanNewlines content.TextContent
  else
    let bodyNodes :=
      match findFirstBody content.Content with
      | some children => children
      | none => content.Content
    let result := md ++ convertToMarkdown preserveLinks bodyNodes
    if goTrim result = goTrim (str "# " ++ content.Title) then
      result ++ CleanNewlines content.TextContent
    else result

/-- ContentProcessor.ToText from user_agent.go: prefer TextContent, fall
back to the document text, clean newlines, wrap. -/
def ToText (content : ProcessedContent) (lineWidth : Nat) : List Char :=
  let text :=
    if content.TextContent ≠ [] then content.TextContent
    else goTextList content.Content
  wrapText (CleanNewlines text) lineWidth

/-! ## Concrete documents used by the claims -/

/-- The parsed form of `&lt;h1&gt;Title&lt;/h1&gt;&lt;p&gt;Hello &lt;a
href="https://x.com"&gt;link&lt;/a&gt;.&lt;/p&gt;` as goquery builds it (net/html wraps
content in html/head/body). -/
def exC6Doc : List Html :=
  [ .elem (str "html") [] [ .elem (str "head") [] [],
      .elem (str "body") [] [
        .elem (str "h1") [] [ .text (str "Title") ],
        .elem (str "p") [] [ .text (str "Hello "),
          .elem (str "a") [(str "href", str "https://x.com")] [ .text (str "link") ],
          .text (str ".") ] ] ] ]

/-- A ProcessedContent carrying the C6 document as its content HTML. -/
def exC6Content : ProcessedContent :=
  { Title := [], Content := exC6Doc, TextContent := str "Hello link.",
    Author := [], Excerpt := [], Byline := [], Length := 0,
    Metadata := [], Images := [], Links := [] }

/-- The parsed form of a document whose only visible text is "This is my
advisor's office" (27 characters). -/
def exC4Doc : List Html :=
  [ .elem (str "html") [] [ .elem (str "head") [] [],
      .elem (str "body") [] [
        .elem (str "p") [] [ .text (str "This is my advisor's office") ] ] ] ]

/-- A readability article whose content holds a paragraph of real text next
to an ad-classed block, with the text rendition readability would return. -/
def exC3Article : ReadabilityArticle :=
  { Title := str "T",
    Content := [ .elem (str "div") [] [
      .elem (str "p") [] [ .text (str "Keep this text.") ],
      .elem (str "div") [(str "class", str "ad-banner")] [ .text (str "Buy now") ] ] ],
    TextContent := str "Keep this text.Buy now",
    Byline := [], Excerpt := [], Length := 22 }

/-- Options enabling ad removal only. -/
def exC3Opts : ProcessOptions :=
  { RemoveAds := true, CleanHTML := false, MinContentLength := 0,
    IncludeMetadata := false, MetadataFields := [] }

/-- The C3 Process run: a fixed readability result, ad removal enabled. -/
def exC3Run : Except ProcessError ProcessedContent :=
  Process (fun _ => .ok exC3Article) (fun _ => none) (str "x") (str "u") exC3Opts

/-- TextContent and tag-stripped Content of a Process outcome, when it
succeeded. -/
def processTexts (e : Except ProcessError ProcessedContent) :
    Option (List Char × List Char) :=
  match e with
  | .ok r => some (r.TextContent, goTextList r.Content)
  | .error _ => none

/-! ## Claims -/

/-- C2: for every HTML input shorter than the configured minimum content
length, Process fails with the content-too-short error.  The check is on
the raw HTML length, and the statement holds for EVERY readability oracle,
which is the shallow form of "no readability scoring work is performed". -/
theorem claim_C2_short_html_fails
    (readability : List Char → Except Unit ReadabilityArticle)
    (parseHTML : List Char → Option (List Html))
    (html url : List Char) (opts : ProcessOptions)
    (h : html.length < opts.MinContentLength) :
    Process readability parseHTML html url opts =
      .error (.contentTooShort html.length opts.MinContentLength) := by
  unfold Process
  rw [if_pos h]

/-- C2 witness: two characters of HTML against a 100-character minimum fail
with the content-too-short error, whatever the readability pass would do. -/
theorem claim_C2_short_html_fails_witness :
    (str "hi").length < 100 ∧
    Process (fun _ => .ok exC3Article) (fun _ => none) (str "hi") (str "u")
      { RemoveAds := false, CleanHTML := false, MinContentLength := 100,
        IncludeMetadata := false, MetadataFields := [] } =
      .error (.contentTooShort 2 100) :=
  ⟨by decide, claim_C2_short_html_fails (fun _ => .ok exC3Article) (fun _ => none)
    (str "hi") (str "u") _ (by decide)⟩

/-- C10: for every parsed Tavily response with a non-empty results array
and a requested format other than "markdown", Extract succeeds with the
first result's raw_content unchanged and the URL and Title taken from that
result (not from the request). -/
theorem claim_C10_tavily_passthrough (url format : List Char)
    (resp : TavilyResponse) (result : TavilyResult) (rest : List TavilyResult)
    (hres : resp.Results = result :: rest) (hfmt : format ≠ str "markdown") :
    tavilyHandleResponse url format resp =
      .ok { URL := result.URL, Title := result.Title, Content := result.RawContent } := by
  unfold tavilyHandleResponse
  rw [hres]
  simp [hfmt]

/-- C10 witness: a "text"-format extraction returns the response's URL,
title and raw content verbatim; the response URL differs from the request. -/
theorem claim_C10_tavily_passthrough_witness :
    tavilyHandleResponse (str "https://req.com") (str "text")
      { Results := [ { URL := str "https://other.com", RawContent := str "# raw **md**",
                       Title := str "Other" } ],
        FailedURLs := [] } =
      .ok { URL := str "https://other.com", Title := str "Other",
            Content := str "# raw **md**" } ∧
    str "https://other.com" ≠ str "https://req.com" :=
  ⟨claim_C10_tavily_passthrough (str "https://req.com") (str "text") _ _ [] rfl (by decide),
   by decide⟩

/-- C5 counterexample: a parsed response whose failed_results list contains
the requested URL while the results array is non-empty.  The claim says the
call must fail with the extraction-failed error; the code returns the first
result successfully, never consulting failed_results. -/
theorem claim_C5_counterexample :
    (str "https://req.com") ∈
      ({ Results := [ { URL := str "https://other.com", RawContent := str "X",
                        Title := str "O" } ],
         FailedURLs := [ str "https://req.com" ] } : TavilyResponse).FailedURLs ∧
    tavilyHandleResponse (str "https://req.com") (str "text")
      { Results := [ { URL := str "https://other.com", RawContent := str "X",
                       Title := str "O" } ],
        FailedURLs := [ str "https://req.com" ] } =
      .ok { URL := str "https://other.com", Title := str "O", Content := str "X" } :=
  ⟨by decide, rfl⟩

/-- C5 (amended): for every parsed Tavily response whose results array is
empty, Extract fails with the extraction-failed error when failed_results
is non-empty (regardless of which URLs it lists), and with the distinct
no-results error when failed_results is empty too. -/
theorem claim_C5_tavily_errors (url format : List Char) (resp : TavilyResponse)
    (hempty : resp.Results = []) :
    tavilyHandleResponse url format resp =
      if resp.FailedURLs.length > 0 then .error (.extractionFailed url)
      else .error (.noResults url) := by
  unfold tavilyHandleResponse
  rw [hempty]

/-- C5 witness: with empty results, a non-empty failed list gives the
extraction-failed error and an empty one the no-results error. -/
theorem claim_C5_tavily_errors_witness :
    tavilyHandleResponse (str "https://failed.com") (str "text")
      { Results := [], FailedURLs := [ str "https://failed.com" ] } =
      .error (.extractionFailed (str "https://failed.com")) ∧
    tavilyHandleResponse (str "https://empty.com") (str "text")
      { Results := [], FailedURLs := [] } =
      .error (.noResults (str "https://empty.com")) :=
  ⟨by rw [claim_C5_tavily_errors (str "https://failed.com") (str "text") _ rfl]; simp,
   by rw [claim_C5_tavily_errors (str "https://empty.com") (str "text") _ rfl]; simp⟩

/-- C7 counterexample: a response body that contains the "Markdown
Content:" marker but whose remainder after the marker trims to nothing.
The claim says the content is everything after the marker, trimmed (the
empty string); the code falls back to returning the whole body instead. -/
theorem claim_C7_counterexample :
    afterFirst (str "Markdown Content:") (str "Title: T\nMarkdown Content:\n \n") =
      some (str "\n \n") ∧
    goTrim (str "\n \n") = [] ∧
    (jinaExtractBody (str "https://example.com") (str "markdown")
        (str "Title: T\nMarkdown Content:\n \n")).Content =
      str "Title: T\nMarkdown Content:\n \n" :=
  ⟨by decide, by decide, rfl⟩

/-- C7 (amended): for every Jina response body containing the "Markdown
Content:" marker, when the remainder after the first marker occurrence is
non-empty once trimmed and the requested format is not "text" (which would
strip Markdown), Extract returns that trimmed remainder as the content and
the value of the first line beginning "Title:" as the title. -/
theorem claim_C7_jina_marker (url format body suffix : List Char)
    (hmark : afterFirst (str "Markdown Content:") body = some suffix)
    (hne : goTrim suffix ≠ [])
    (hfmt : format ≠ str "text") :
    jinaExtractBody url format body =
      { URL := url, Title := extractJinaField body (str "Title:"),
        Content := goTrim suffix } := by
  simp [jinaExtractBody, extractJinaMarkdown, hmark, hne, hfmt]

/-- C7 witness: the spec's example response yields title "Example" and
content "# Example\n\nBody text.". -/
theorem claim_C7_jina_marker_witness :
    jinaExtractBody (str "https://example.com") (str "markdown")
        (str "Title: Example\n\nMarkdown Content:\n# Example\n\nBody text.") =
      { URL := str "https://example.com", Title := str "Example",
        Content := str "# Example\n\nBody text." } :=
  by rw [claim_C7_jina_marker (str "https://example.com") (str "markdown")
      (str "Title: Example\n\nMarkdown Content:\n# Example\n\nBody text.")
      (str "\n# Example\n\nBody text.") (by decide) (by decide) (by decide)]; decide

/-- C6 counterexample: rendering
`&lt;h1&gt;Title&lt;/h1&gt;&lt;p&gt;Hello &lt;a href="https://x.com"&gt;link&lt;/a&gt;.&lt;/p&gt;` with links
preserved does not produce "# Title\n\nHello [link](https://x.com).\n\n",
not even modulo surrounding whitespace: the text node "Hello " is trimmed
before concatenation, so the space before the link is lost. -/
theorem claim_C6_counterexample :
    ToMarkdown exC6Content false true ≠
      str "# Title\n\nHello [link](https://x.com).\n\n" ∧
    goTrim (ToMarkdown exC6Content false true) ≠
      goTrim (str "# Title\n\nHello [link](https://x.com).\n\n") :=
  ⟨by decide, by decide⟩

/-- C6 (amended): rendering the content HTML
`&lt;h1&gt;Title&lt;/h1&gt;&lt;p&gt;Hello &lt;a href="https://x.com"&gt;link&lt;/a&gt;.&lt;/p&gt;` to Markdown
with links preserved yields "# Title\n\nHello[link](https://x.com).\n\n":
headings and links render as claimed, but the trailing space of the text
node "Hello " is dropped by the per-node TrimSpace. -/
theorem claim_C6_markdown_rendering :
    ToMarkdown exC6Content false true =
      str "# Title\n\nHello[link](https://x.com).\n\n" := rfl

/-- C4 counterexample: on a document whose only element text is "This is my
advisor's office" (27 characters, containing "ad" inside "advisor"),
removeAds deletes everything — the text-pass condition contains-"ad" with
trimmed length below 50 matches the html element itself, so the paragraph
is not preserved. -/
theorem claim_C4_counterexample :
    goTextList exC4Doc = str "This is my advisor's office" ∧
    (goTrim (goTextList exC4Doc)).length = 27 ∧
    removeAds exC4Doc = [] :=
  ⟨rfl, by decide, rfl⟩

/-- C4 (amended): removeAds DOES delete an element whose visible text is
"This is my advisor's office": the short-text heuristic checks the
substring "ad" against the visible text (not only attribute values) with no
word-boundary test, so the paragraph matches the ad condition and is
removed. -/
theorem claim_C4_advisor_removed :
    adTextCond (.elem (str "p") [] [ .text (str "This is my advisor's office") ]) = true ∧
    removeAdText (.elem (str "p") [] [ .text (str "This is my advisor's office") ]) =
      none :=
  ⟨by decide, rfl⟩

/-- C3 counterexample: a successful Process call with ad removal enabled
whose result has TextContent "Keep this text.Buy now" while the tag-stripped
rendition of its (ad-stripped) Content is "Keep this text." — the two
fields are not produced together; TextContent is stale. -/
theorem claim_C3_counterexample :
    processTexts exC3Run = some (str "Keep this text.Buy now", str "Keep this text.") ∧
    str "Keep this text.Buy now" ≠ str "Keep this text." :=
  ⟨rfl, by decide⟩

/-- C3 (amended): for every successful Process call, TextContent is the
newline-cleaned text of the readability article, fixed at construction;
the cleanHTML and removeAds stages rewrite only Content, so after them
TextContent need not equal the tag-stripped Content. -/
theorem claim_C3_textContent_fixed
    (readability : List Char → Except Unit ReadabilityArticle)
    (parseHTML : List Char → Option (List Html))
    (html url : List Char) (opts : ProcessOptions) (article : ReadabilityArticle)
    (hlen : ¬ html.length < opts.MinContentLength)
    (hr : readability html = .ok article) :
    ∃ r, Process readability parseHTML html url opts = .ok r ∧
      r.TextContent = CleanNewlines article.TextContent ∧
      r.Content = (if opts.RemoveAds then removeAds else id)
        ((if opts.CleanHTML then cleanHTML else id) article.Content) := by
  unfold Process
  rw [if_neg hlen, hr]
  refine ⟨_, rfl, ?_, ?_⟩ <;>
    rcases opts with ⟨ra, ch, mcl, im, mf⟩ <;>
    cases ra <;> cases ch <;> cases im <;>
    simp <;> cases parseHTML html <;> simp

/-! ## C9: the wrapText line bound -/

theorem consHead_ne_nil (c : Char) (xs : List (List Char)) : consHead c xs ≠ [] := by
  cases xs <;> simp [consHead]

theorem splitNl_ne_nil : ∀ l : List Char, splitNl l ≠ []
  | [] => by simp [splitNl]
  | c :: rest => by
    simp only [splitNl]
    by_cases h : c = '\n'
    · simp [h]
    · simp only [if_neg h]
      exact consHead_ne_nil c (splitNl rest)

theorem consHead_append (c : Char) (xs ys : List (List Char)) (h : xs ≠ []) :
    consHead c (xs ++ ys) = consHead c xs ++ ys := by
  cases xs with
  | nil => exact absurd rfl h
  | cons p ps => simp [consHead]

theorem splitNl_cons_nl (x : List Char) : splitNl ('\n' :: x) = [] :: splitNl x := by
  simp [splitNl]

theorem splitNl_cons_other {c : Char} (h : c ≠ '\n') (x : List Char) :
    splitNl (c :: x) = consHead c (splitNl x) := by
  simp [splitNl, h]

theorem splitNl_append_nl : ∀ a b : List Char,
    splitNl (a ++ '\n' :: b) = splitNl a ++ splitNl b
  | [], b => by simp [splitNl]
  | c :: a, b => by
    by_cases h : c = '\n'
    · subst h
      rw [List.cons_append, splitNl_cons_nl, splitNl_cons_nl, splitNl_append_nl a b,
        List.cons_append]
    · rw [List.cons_append, splitNl_cons_other h, splitNl_cons_other h,
        splitNl_append_nl a b, consHead_append c _ _ (splitNl_ne_nil a)]

theorem splitNl_no_nl : ∀ a : List Char, '\n' ∉ a → splitNl a = [a]
  | [], _ => rfl
  | c :: a, h => by
    have hc : ¬ c = '\n' := fun e => h (by simp [e])
    have ha : '\n' ∉ a := fun e => h (List.mem_cons_of_mem _ e)
    simp only [splitNl, if_neg hc, splitNl_no_nl a ha, consHead]

theorem fieldsAux_nonspace : ∀ (l acc : List Char),
    (∀ c ∈ acc, goIsSpace c = false) →
    ∀ w ∈ fieldsAux acc l, ∀ c ∈ w, goIsSpace c = false
  | [], acc, hacc, w, hw => by
    simp only [fieldsAux] at hw
    by_cases h0 : acc = []
    · rw [if_pos h0] at hw
      exact absurd hw (List.not_mem_nil w)
    · rw [if_neg h0] at hw
      rcases List.mem_singleton.mp hw with rfl
      intro ch hch
      exact hacc ch (List.mem_reverse.mp hch)
  | c :: l, acc, hacc, w, hw => by
    simp only [fieldsAux] at hw
    by_cases hc : goIsSpace c
    · rw [if_pos hc] at hw
      by_cases h0 : acc = []
      · rw [if_pos h0] at hw
        exact fieldsAux_nonspace l [] (by simp) w hw
      · rw [if_neg h0] at hw
        rcases List.mem_cons.mp hw with rfl | h
        · intro ch hch
          exact hacc ch (List.mem_reverse.mp hch)
        · exact fieldsAux_nonspace l [] (by simp) w h
    · rw [if_neg hc] at hw
      refine fieldsAux_nonspace l (c :: acc) ?_ w hw
      intro ch hch
      rcases List.mem_cons.mp hch with rfl | h
      · simpa using hc
      · exact hacc ch h

/-- A wrapped output line is within the width or consists of a single word
(no whitespace at all). -/
def goodLine (w : Nat) (line : List Char) : Prop :=
  line.length ≤ w ∨ ∀ c ∈ line, goIsSpace c = false

theorem nonspace_no_nl {word : List Char}
    (h : ∀ c ∈ word, goIsSpace c = false) : '\n' ∉ word := by
  intro hmem
  have := h '\n' hmem
  simp [goIsSpace] at this

theorem wrapWords_lines (w : Nat) : ∀ (ws : List (List Char)) (current : List Char),
    '\n' ∉ current → goodLine w current →
    (∀ word ∈ ws, ∀ c ∈ word, goIsSpace c = false) →
    ∀ line ∈ splitNl (wrapWords w current ws), goodLine w line
  | [], current, hnl, hgood, _, line, hline => by
    rw [wrapWords, splitNl_no_nl current hnl] at hline
    rcases List.mem_singleton.mp hline with rfl
    exact hgood
  | word :: ws, current, hnl, hgood, hws, line, hline => by
    rw [wrapWords] at hline
    by_cases hfit : current.length + 1 + word.length ≤ w
    · rw [if_pos hfit] at hline
      refine wrapWords_lines w ws (current ++ ' ' :: word) ?_ ?_ ?_ line hline
      · intro hmem
        rcases List.mem_append.mp hmem with h | h
        · exact hnl h
        · rcases List.mem_cons.mp h with h | h
          · exact absurd h.symm (by decide)
          · exact nonspace_no_nl (hws word (List.mem_cons_self word ws)) h
      · left
        simp only [List.length_append, List.length_cons]
        omega
      · intro v hv
        exact hws v (List.mem_cons_of_mem word hv)
    · rw [if_neg hfit, splitNl_append_nl] at hline
      rcases List.mem_append.mp hline with h | h
      · rw [splitNl_no_nl current hnl] at h
        rcases List.mem_singleton.mp h with rfl
        exact hgood
      · refine wrapWords_lines w ws word
          (nonspace_no_nl (hws word (List.mem_cons_self word ws)))
          (Or.inr (hws word (List.mem_cons_self word ws)))
          (fun v hv => hws v (List.mem_cons_of_mem word hv)) line h

theorem paraBody_lines (w : Nat) (p : List Char) :
    ∀ line ∈ splitNl (match fields p with
      | [] => ([] : List Char)
      | w0 :: ws => wrapWords w w0 ws), goodLine w line := by
  intro line hline
  cases hf : fields p with
  | nil =>
    rw [hf] at hline
    simp only [splitNl] at hline
    rcases List.mem_singleton.mp hline with rfl
    exact Or.inl (Nat.zero_le w)
  | cons w0 ws =>
    rw [hf] at hline
    have hall : ∀ v ∈ w0 :: ws, ∀ c ∈ v, goIsSpace c = false := by
      rw [← hf]
      exact fun v hv => fieldsAux_nonspace p [] (by simp) v hv
    exact wrapWords_lines w ws w0
      (nonspace_no_nl (hall w0 (List.mem_cons_self w0 ws)))
      (Or.inr (hall w0 (List.mem_cons_self w0 ws)))
      (fun v hv => hall v (List.mem_cons_of_mem w0 hv)) line hline

theorem goodLine_nil (w : Nat) : goodLine w [] :=
  Or.inl (Nat.zero_le w)

theorem sep_prepend_lines (w : Nat) (x : List Char)
    (hx : ∀ line ∈ splitNl x, goodLine w line) :
    ∀ line ∈ splitNl (str "\n\n" ++ x), goodLine w line := by
  intro line hline
  have hstep : str "\n\n" ++ x = '\n' :: '\n' :: x := rfl
  rw [hstep, splitNl_cons_nl, splitNl_cons_nl] at hline
  rcases List.mem_cons.mp hline with rfl | hline
  · exact goodLine_nil w
  rcases List.mem_cons.mp hline with rfl | hline
  · exact goodLine_nil w
  exact hx line hline

theorem wrapParas_lines (w : Nat) : ∀ (ps : List (List Char)) (isFirst : Bool),
    ∀ line ∈ splitNl (wrapParas w isFirst ps), goodLine w line
  | [], isFirst, line, hline => by
    rw [wrapParas] at hline
    simp only [splitNl] at hline
    rcases List.mem_singleton.mp hline with rfl
    exact goodLine_nil w
  | p :: ps, isFirst, line, hline => by
    rw [wrapParas] at hline
    have hbody : ∀ line2 ∈ splitNl ((match fields p with
        | [] => ([] : List Char)
        | w0 :: ws => wrapWords w w0 ws) ++ wrapParas w false ps),
        goodLine w line2 := by
      cases ps with
      | nil =>
        intro line2 hline2
        rw [wrapParas, List.append_nil] at hline2
        exact paraBody_lines w p line2 hline2
      | cons q qs =>
        have hT : wrapParas w false (q :: qs) =
            '\n' :: '\n' :: ((match fields q with
              | [] => ([] : List Char)
              | w0 :: ws => wrapWords w w0 ws) ++ wrapParas w false qs) := rfl
        intro line2 hline2
        rw [hT, splitNl_append_nl] at hline2
        rcases List.mem_append.mp hline2 with h | h
        · exact paraBody_lines w p line2 h
        · refine wrapParas_lines w (q :: qs) false line2 ?_
          rw [hT, splitNl_cons_nl]
          exact List.mem_cons_of_mem _ h
    cases isFirst with
    | true =>
      rw [if_pos rfl, List.nil_append] at hline
      exact hbody line hline
    | false =>
      rw [if_neg (by decide : ¬ (false = true))] at hline
      exact sep_prepend_lines w _ hbody line hline

/-- C9: for every text and positive line width, every line of
wrapText(text, lineWidth) is at most lineWidth characters long, except
lines consisting of a single word (no whitespace at all), which may exceed
the width.  Greedy placement and paragraph handling are the definitions
wrapWords and wrapParas, transcribed from the source. -/
theorem claim_C9_wrapText_line_bound (text : List Char) (lineWidth : Nat)
    (h : 0 < lineWidth) :
    ∀ line ∈ splitNl (wrapText text lineWidth),
      line.length ≤ lineWidth ∨ ∀ c ∈ line, goIsSpace c = false := by
  intro line hline
  rw [wrapText, if_neg (Nat.pos_iff_ne_zero.mp h)] at hline
  exact wrapParas_lines lineWidth (splitNN text) true line hline

/-- C9 witness: wrapping "one two three" at width 10 produces the line
"one two", which is within the width. -/
theorem claim_C9_wrapText_line_bound_witness :
    0 < 10 ∧ (str "one two") ∈ splitNl (wrapText (str "one two three") 10) ∧
    ((str "one two").length ≤ 10 ∨ ∀ c ∈ str "one two", goIsSpace c = false) :=
  ⟨by decide, by decide,
   claim_C9_wrapText_line_bound (str "one two three") 10 (by decide)
     (str "one two") (by decide)⟩

/-! ## C1: idempotence of CleanNewlines — space-collapsing theory -/

/-- Every maximal run of spaces collapsed to a single space (keeping the
last space of each run); the normal form computed by the
ReplaceAll("  ", " ") loop. -/
def collapseRuns : List Char → List Char
  | [] => []
  | [c] => [c]
  | c :: d :: rest =>
    if c = ' ' ∧ d = ' ' then collapseRuns (d :: rest)
    else c :: collapseRuns (d :: rest)

theorem collapseRuns_cons_cons (c d : Char) (rest : List Char) :
    collapseRuns (c :: d :: rest) =
      if c = ' ' ∧ d = ' ' then collapseRuns (d :: rest)
      else c :: collapseRuns (d :: rest) := rfl

theorem collapseRuns_head : ∀ l : List Char, (collapseRuns l).head? = l.head?
  | [] => rfl
  | [c] => rfl
  | c :: d :: rest => by
    rw [collapseRuns_cons_cons]
    by_cases h : c = ' ' ∧ d = ' '
    · rw [if_pos h, collapseRuns_head (d :: rest)]
      simp [h.1, h.2]
    · rw [if_neg h]
      rfl

theorem collapseRuns_ne_nil {l : List Char} (h : l ≠ []) : collapseRuns l ≠ [] := by
  intro hnil
  have := collapseRuns_head l
  rw [hnil] at this
  cases l with
  | nil => exact h rfl
  | cons c t => simp at this

theorem collapseRuns_getLast : ∀ l : List Char, (collapseRuns l).getLast? = l.getLast?
  | [] => rfl
  | [c] => rfl
  | c :: d :: rest => by
    rw [collapseRuns_cons_cons]
    by_cases h : c = ' ' ∧ d = ' '
    · rw [if_pos h, collapseRuns_getLast (d :: rest)]
      rw [List.getLast?_cons_cons]
    · rw [if_neg h]
      rw [List.getLast?_cons_cons]
      cases hcr : collapseRuns (d :: rest) with
      | nil => exact absurd hcr (collapseRuns_ne_nil (by simp))
      | cons x t =>
        rw [← hcr, ← collapseRuns_getLast (d :: rest), hcr]
        simp [List.getLast?_cons]

theorem collapseRuns_mem : ∀ (l : List Char) (c : Char), c ∈ collapseRuns l → c ∈ l
  | [], c, h => h
  | [d], c, h => h
  | a :: d :: rest, c, h => by
    rw [collapseRuns_cons_cons] at h
    by_cases hc : a = ' ' ∧ d = ' '
    · rw [if_pos hc] at h
      exact List.mem_cons_of_mem a (collapseRuns_mem (d :: rest) c h)
    · rw [if_neg hc] at h
      rcases List.mem_cons.mp h with rfl | h
      · exact List.mem_cons_self c _
      · exact List.mem_cons_of_mem a (collapseRuns_mem (d :: rest) c h)

theorem collapseRuns_of_not_hasTwoSp : ∀ l : List Char, hasTwoSp l = false →
    collapseRuns l = l
  | [], _ => rfl
  | [c], _ => rfl
  | c :: d :: rest, h => by
    simp only [hasTwoSp, Bool.or_eq_false_iff, Bool.and_eq_false_iff] at h
    rw [collapseRuns_cons_cons, if_neg, collapseRuns_of_not_hasTwoSp (d :: rest) h.2]
    rintro ⟨rfl, rfl⟩
    rcases h.1 with h1 | h1 <;> simp at h1

theorem hasTwoSp_collapseRuns : ∀ l : List Char, hasTwoSp (collapseRuns l) = false
  | [] => rfl
  | [c] => rfl
  | c :: d :: rest => by
    rw [collapseRuns_cons_cons]
    by_cases h : c = ' ' ∧ d = ' '
    · rw [if_pos h]
      exact hasTwoSp_collapseRuns (d :: rest)
    · rw [if_neg h]
      cases hcr : collapseRuns (d :: rest) with
      | nil => rfl
      | cons x t =>
        have hx : x = d := by
          have := collapseRuns_head (d :: rest)
          rw [hcr] at this
          simpa using this
        simp only [hasTwoSp, Bool.or_eq_false_iff, Bool.and_eq_false_iff]
        refine ⟨?_, by rw [← hcr]; exact hasTwoSp_collapseRuns (d :: rest)⟩
        by_cases hc : c = ' '
        · right
          simp only [decide_eq_false_iff_not]
          intro hd
          refine h ⟨hc, ?_⟩
          rw [← hx]
          exact hd
        · left
          simp [hc]

theorem replTwoSp_head : ∀ l : List Char, (replTwoSp l).head? = l.head?
  | [] => rfl
  | [c] => rfl
  | c :: d :: rest => by
    simp only [replTwoSp]
    by_cases h : c = ' ' ∧ d = ' '
    · rw [if_pos h]
      simp [h.1]
    · rw [if_neg h]
      rfl

theorem collapseRuns_replTwoSp : ∀ l : List Char,
    collapseRuns (replTwoSp l) = collapseRuns l
  | [] => rfl
  | [c] => rfl
  | c :: d :: rest => by
    simp only [replTwoSp]
    by_cases h : c = ' ' ∧ d = ' '
    · obtain ⟨rfl, rfl⟩ := h
      rw [if_pos ⟨rfl, rfl⟩]
      rw [collapseRuns_cons_cons (' ') (' ') rest, if_pos ⟨rfl, rfl⟩]
      cases rest with
      | nil => rfl
      | cons r0 r' =>
        have hh := replTwoSp_head (r0 :: r')
        cases hrw : replTwoSp (r0 :: r') with
        | nil =>
          rw [hrw] at hh
          simp at hh
        | cons x t =>
          rw [hrw] at hh
          obtain rfl : r0 = x := by simpa using hh.symm
          rw [collapseRuns_cons_cons, collapseRuns_cons_cons]
          by_cases hr0 : r0 = ' '
          · subst hr0
            rw [if_pos ⟨rfl, rfl⟩, if_pos ⟨rfl, rfl⟩, ← hrw,
              collapseRuns_replTwoSp (' ' :: r')]
          · rw [if_neg (fun hc => hr0 hc.2), if_neg (fun hc => hr0 hc.2),
              ← hrw, collapseRuns_replTwoSp (r0 :: r')]
    · rw [if_neg h]
      have hh := replTwoSp_head (d :: rest)
      cases hrw : replTwoSp (d :: rest) with
      | nil =>
        rw [hrw] at hh
        simp at hh
      | cons x t =>
        rw [hrw] at hh
        obtain rfl : d = x := by simpa using hh.symm
        rw [collapseRuns_cons_cons, collapseRuns_cons_cons, if_neg h, if_neg h,
          ← hrw, collapseRuns_replTwoSp (d :: rest)]

theorem collapseSpacesFuel_eq : ∀ (fuel : Nat) (l : List Char), l.length ≤ fuel →
    collapseSpacesFuel fuel l = collapseRuns l
  | 0, l, h => by
    have : l = [] := List.length_eq_zero.mp (Nat.le_zero.mp h)
    subst this
    rfl
  | fuel + 1, l, h => by
    simp only [collapseSpacesFuel]
    by_cases ht : hasTwoSp l
    · rw [if_pos ht]
      have hlt := replTwoSp_length_lt l ht
      rw [collapseSpacesFuel_eq fuel (replTwoSp l) (by omega)]
      exact collapseRuns_replTwoSp l
    · rw [if_neg ht]
      exact (collapseRuns_of_not_hasTwoSp l (by simpa using ht)).symm

theorem collapseSpaces_eq_collapseRuns (l : List Char) :
    collapseSpaces l = collapseRuns l :=
  collapseSpacesFuel_eq l.length l le_rfl

theorem collapseSpaces_of_not_hasTwoSp (l : List Char) (h : hasTwoSp l = false) :
    collapseSpaces l = l := by
  rw [collapseSpaces_eq_collapseRuns]
  exact collapseRuns_of_not_hasTwoSp l h

/-! ## C1: trim, split and join support lemmas -/

theorem dropWhile_head_not (p : Char → Bool) : ∀ (l : List Char) (c : Char),
    (l.dropWhile p).head? = some c → p c = false
  | [], c, h => by simp at h
  | a :: t, c, h => by
    rw [List.dropWhile_cons] at h
    by_cases ha : p a
    · rw [if_pos ha] at h
      exact dropWhile_head_not p t c h
    · rw [if_neg ha] at h
      obtain rfl : a = c := by simpa using h
      simpa using ha

theorem head?_append_left (a b : List Char) (ha : a ≠ []) :
    (a ++ b).head? = a.head? := by
  cases a with
  | nil => exact absurd rfl ha
  | cons x t => rfl

theorem getLast?_append_right (a b : List Char) (hb : b ≠ []) :
    (a ++ b).getLast? = b.getLast? := by
  rw [← List.head?_reverse, List.reverse_append,
    head?_append_left _ _ (by simpa using hb), List.head?_reverse]

theorem goTrim_eq_self (l : List Char)
    (hhead : ∀ c, l.head? = some c → goIsSpace c = false)
    (hlast : ∀ c, l.getLast? = some c → goIsSpace c = false) :
    goTrim l = l := by
  unfold goTrim
  have h1 : l.dropWhile goIsSpace = l := by
    cases l with
    | nil => rfl
    | cons a t =>
      rw [List.dropWhile_cons, if_neg]
      simp [hhead a rfl]
  rw [h1]
  have h2 : l.reverse.dropWhile goIsSpace = l.reverse := by
    cases hr : l.reverse with
    | nil => rfl
    | cons a t =>
      rw [List.dropWhile_cons, if_neg]
      have hl : l.getLast? = some a := by
        rw [← List.head?_reverse, hr]
        rfl
      simp [hlast a hl]
  rw [h2, List.reverse_reverse]

theorem goTrim_last_not_space (l : List Char) (c : Char)
    (h : (goTrim l).getLast? = some c) : goIsSpace c = false := by
  unfold goTrim at h
  rw [List.getLast?_reverse] at h
  exact dropWhile_head_not _ _ _ h

theorem goTrim_head_not_space (l : List Char) (c : Char)
    (h : (goTrim l).head? = some c) : goIsSpace c = false := by
  unfold goTrim at h
  rw [List.head?_reverse] at h
  have hne : (l.dropWhile goIsSpace).reverse.dropWhile goIsSpace ≠ [] := by
    intro hnil
    rw [hnil] at h
    simp at h
  have hstep : ((l.dropWhile goIsSpace).reverse.dropWhile goIsSpace).getLast? =
      (l.dropWhile goIsSpace).reverse.getLast? := by
    conv_rhs =>
      rw [← List.takeWhile_append_dropWhile (p := goIsSpace)
        (l := (l.dropWhile goIsSpace).reverse)]
    rw [getLast?_append_right _ _ hne]
  rw [hstep, List.getLast?_reverse] at h
  exact dropWhile_head_not _ _ _ h

theorem goTrim_mem (l : List Char) (c : Char) (h : c ∈ goTrim l) : c ∈ l := by
  unfold goTrim at h
  rw [List.mem_reverse] at h
  have h2 := (List.dropWhile_sublist _).subset h
  rw [List.mem_reverse] at h2
  exact (List.dropWhile_sublist _).subset h2

theorem splitNl_mem_no_nl : ∀ (x piece : List Char),
    piece ∈ splitNl x → '\n' ∉ piece
  | [], piece, h => by
    simp only [splitNl] at h
    rcases List.mem_singleton.mp h with rfl
    simp
  | c :: rest, piece, h => by
    by_cases hc : c = '\n'
    · subst hc
      rw [splitNl_cons_nl] at h
      rcases List.mem_cons.mp h with rfl | h
      · simp
      · exact splitNl_mem_no_nl rest piece h
    · rw [splitNl_cons_other hc] at h
      cases hs : splitNl rest with
      | nil => exact absurd hs (splitNl_ne_nil rest)
      | cons p ps =>
        rw [hs] at h
        simp only [consHead] at h
        rcases List.mem_cons.mp h with rfl | h
        · intro hmem
          rcases List.mem_cons.mp hmem with h1 | h1
          · exact hc h1.symm
          · exact splitNl_mem_no_nl rest p
              (by rw [hs]; exact List.mem_cons_self p ps) h1
        · exact splitNl_mem_no_nl rest piece
            (by rw [hs]; exact List.mem_cons_of_mem p h)

theorem splitNl_mem_subset : ∀ (x piece : List Char),
    piece ∈ splitNl x → ∀ c ∈ piece, c ∈ x
  | [], piece, h => by
    simp only [splitNl] at h
    rcases List.mem_singleton.mp h with rfl
    simp
  | a :: rest, piece, h => by
    by_cases ha : a = '\n'
    · subst ha
      rw [splitNl_cons_nl] at h
      rcases List.mem_cons.mp h with rfl | h
      · simp
      · exact fun c hc =>
          List.mem_cons_of_mem _ (splitNl_mem_subset rest piece h c hc)
    · rw [splitNl_cons_other ha] at h
      cases hs : splitNl rest with
      | nil => exact absurd hs (splitNl_ne_nil rest)
      | cons p ps =>
        rw [hs] at h
        simp only [consHead] at h
        rcases List.mem_cons.mp h with rfl | h
        · intro c hc
          rcases List.mem_cons.mp hc with rfl | hc
          · exact List.mem_cons_self c rest
          · exact List.mem_cons_of_mem _ (splitNl_mem_subset rest p
              (by rw [hs]; exact List.mem_cons_self p ps) c hc)
        · exact fun c hc => List.mem_cons_of_mem _
            (splitNl_mem_subset rest piece
              (by rw [hs]; exact List.mem_cons_of_mem p h) c hc)

theorem splitNN_cons_cons (c d : Char) (rest : List Char) :
    splitNN (c :: d :: rest) =
      if c = '\n' ∧ d = '\n' then [] :: splitNN rest
      else consHead c (splitNN (d :: rest)) := rfl

theorem splitNN_ne_nil : ∀ x : List Char, splitNN x ≠ []
  | [] => by simp [splitNN]
  | [c] => by simp [splitNN]
  | c :: d :: rest => by
    rw [splitNN_cons_cons]
    by_cases h : c = '\n' ∧ d = '\n'
    · simp [h]
    · rw [if_neg h]
      exact consHead_ne_nil c (splitNN (d :: rest))

theorem splitNN_mem_subset : ∀ (x piece : List Char),
    piece ∈ splitNN x → ∀ c ∈ piece, c ∈ x
  | [], piece, h => by
    simp only [splitNN] at h
    rcases List.mem_singleton.mp h with rfl
    simp
  | [a], piece, h => by
    simp only [splitNN] at h
    rcases List.mem_singleton.mp h with rfl
    simp
  | a :: d :: rest, piece, h => by
    rw [splitNN_cons_cons] at h
    by_cases had : a = '\n' ∧ d = '\n'
    · rw [if_pos had] at h
      rcases List.mem_cons.mp h with rfl | h
      · simp
      · exact fun c hc => List.mem_cons_of_mem _ (List.mem_cons_of_mem _
          (splitNN_mem_subset rest piece h c hc))
    · rw [if_neg had] at h
      cases hs : splitNN (d :: rest) with
      | nil => exact absurd hs (splitNN_ne_nil (d :: rest))
      | cons p ps =>
        rw [hs] at h
        simp only [consHead] at h
        rcases List.mem_cons.mp h with rfl | h
        · intro c hc
          rcases List.mem_cons.mp hc with rfl | hc
          · exact List.mem_cons_self c _
          · exact List.mem_cons_of_mem _ (splitNN_mem_subset (d :: rest) p
              (by rw [hs]; exact List.mem_cons_self p ps) c hc)
        · exact fun c hc => List.mem_cons_of_mem _
            (splitNN_mem_subset (d :: rest) piece
              (by rw [hs]; exact List.mem_cons_of_mem p h) c hc)

/-- Adjacent-newline-pair detector, the normal-form condition for
splitNN reconstruction. -/
def hasNlPair : List Char → Bool
  | [] => false
  | [_] => false
  | c :: d :: rest => (c = '\n' && d = '\n') || hasNlPair (d :: rest)

theorem hasNlPair_of_no_nl : ∀ l : List Char, '\n' ∉ l → hasNlPair l = false
  | [], _ => rfl
  | [_], _ => rfl
  | c :: d :: rest, h => by
    simp only [hasNlPair, Bool.or_eq_false_iff, Bool.and_eq_false_iff]
    constructor
    · left
      simp only [decide_eq_false_iff_not]
      intro hc
      exact h (by simp [hc])
    · exact hasNlPair_of_no_nl (d :: rest) fun hm => h (List.mem_cons_of_mem c hm)

theorem splitNN_of_no_pair : ∀ w : List Char, hasNlPair w = false → splitNN w = [w]
  | [], _ => rfl
  | [c], _ => rfl
  | c :: d :: rest, h => by
    simp only [hasNlPair, Bool.or_eq_false_iff, Bool.and_eq_false_iff,
      decide_eq_false_iff_not] at h
    rw [splitNN_cons_cons, if_neg, splitNN_of_no_pair (d :: rest) h.2]
    · rfl
    · rintro ⟨rfl, rfl⟩
      rcases h.1 with h1 | h1 <;> exact h1 rfl

theorem splitNN_append_pair : ∀ (w : List Char), hasNlPair w = false →
    (∀ c, w.getLast? = some c → c ≠ '\n') →
    ∀ rest, splitNN (w ++ '\n' :: '\n' :: rest) = w :: splitNN rest
  | [], _, _, rest => by
    rw [List.nil_append, splitNN_cons_cons, if_pos ⟨rfl, rfl⟩]
  | [x], _, hlast, rest => by
    have hx : x ≠ '\n' := hlast x rfl
    rw [List.cons_append, List.nil_append, splitNN_cons_cons,
      if_neg (fun hc => hx hc.1), splitNN_cons_cons, if_pos ⟨rfl, rfl⟩]
    rfl
  | x :: y :: w', h, hlast, rest => by
    simp only [hasNlPair, Bool.or_eq_false_iff, Bool.and_eq_false_iff,
      decide_eq_false_iff_not] at h
    have hxy : ¬ (x = '\n' ∧ y = '\n') := by
      rintro ⟨rfl, rfl⟩
      rcases h.1 with h1 | h1 <;> exact h1 rfl
    have hlast2 : ∀ c, (y :: w').getLast? = some c → c ≠ '\n' := by
      intro c hc
      refine hlast c ?_
      rw [List.getLast?_cons_cons]
      exact hc
    rw [List.cons_append, List.cons_append, splitNN_cons_cons, if_neg hxy,
      ← List.cons_append, splitNN_append_pair (y :: w') h.2 hlast2 rest]
    rfl

theorem joinSep_ne_nil (sep : List Char) : ∀ qs : List (List Char),
    qs ≠ [] → (∀ q ∈ qs, q ≠ []) → joinSep sep qs ≠ []
  | [], h, _ => absurd rfl h
  | [q], _, hall => by
    simpa [joinSep] using hall q (List.mem_singleton.mpr rfl)
  | q :: q' :: r, _, hall => by
    simp only [joinSep]
    intro hnil
    rcases List.append_eq_nil.mp (List.append_eq_nil.mp hnil).1 with ⟨hq, _⟩
    exact hall q (List.mem_cons_self q _) hq

theorem joinSep_head (sep : List Char) : ∀ (q : List Char) (qs : List (List Char)),
    q ≠ [] → (joinSep sep (q :: qs)).head? = q.head?
  | q, [], _ => rfl
  | q, q' :: r, hq => by
    simp only [joinSep]
    rw [List.append_assoc, head?_append_left _ _ hq]

theorem joinSep_getLast_mem (sep : List Char) : ∀ (qs : List (List Char)) (c : Char),
    (∀ q ∈ qs, q ≠ []) → (joinSep sep qs).getLast? = some c →
    ∃ q ∈ qs, q.getLast? = some c
  | [], c, _, h => by simp [joinSep] at h
  | [q], c, _, h => ⟨q, List.mem_singleton.mpr rfl, h⟩
  | q :: q' :: r, c, hall, h => by
    simp only [joinSep] at h
    have hJ : joinSep sep (q' :: r) ≠ [] :=
      joinSep_ne_nil sep (q' :: r) (by simp)
        (fun x hx => hall x (List.mem_cons_of_mem q hx))
    rw [List.append_assoc, getLast?_append_right _ _ (by
      intro hnil
      exact hJ (List.append_eq_nil.mp hnil).2)] at h
    rw [getLast?_append_right _ _ hJ] at h
    obtain ⟨x, hx, hxl⟩ := joinSep_getLast_mem sep (q' :: r) c
      (fun x hx => hall x (List.mem_cons_of_mem q hx)) h
    exact ⟨x, List.mem_cons_of_mem q hx, hxl⟩

theorem joinSep_mem (sep : List Char) : ∀ (qs : List (List Char)) (c : Char),
    c ∈ joinSep sep qs → c ∈ sep ∨ ∃ q ∈ qs, c ∈ q
  | [], c, h => by simp [joinSep] at h
  | [q], c, h => Or.inr ⟨q, List.mem_singleton.mpr rfl, h⟩
  | q :: q' :: r, c, h => by
    simp only [joinSep] at h
    rcases List.mem_append.mp h with h1 | h1
    · rcases List.mem_append.mp h1 with h2 | h2
      · exact Or.inr ⟨q, List.mem_cons_self q _, h2⟩
      · exact Or.inl h2
    · rcases joinSep_mem sep (q' :: r) c h1 with h2 | ⟨x, hx, hc⟩
      · exact Or.inl h2
      · exact Or.inr ⟨x, List.mem_cons_of_mem q hx, hc⟩

theorem hasTwoSp_cons_ne (c : Char) (z : List Char) (hc : c ≠ ' ') :
    hasTwoSp (c :: z) = hasTwoSp z := by
  cases z with
  | nil => simp [hasTwoSp]
  | cons d t => simp [hasTwoSp, hc]

theorem hasNlPair_cons_ne (c : Char) (z : List Char) (hc : c ≠ '\n') :
    hasNlPair (c :: z) = hasNlPair z := by
  cases z with
  | nil => simp [hasNlPair]
  | cons d t => simp [hasNlPair, hc]

/-! ## C1: line predicates, boundary relation, cleanLines lemmas -/

/-- The boundary relation of CleanNewlines: two adjacent cleaned lines stay
separate (the previous ends a sentence or the current starts one). -/
def lineB (a b : List Char) : Prop :=
  endsWithPunct a = true ∨ startsNewSentence b = true

/-- A cleaned line: non-empty, whitespace-trimmed at both ends, and free of
newline and carriage-return characters. -/
def LineOk (l : List Char) : Prop :=
  l ≠ [] ∧ (∀ c, l.head? = some c → goIsSpace c = false) ∧
  (∀ c, l.getLast? = some c → goIsSpace c = false) ∧ '\n' ∉ l ∧ '\r' ∉ l

theorem LineOk_trim {l : List Char} (h : LineOk l) : goTrim l = l :=
  goTrim_eq_self l h.2.1 h.2.2.1

theorem isPrefixOf_two_iff (m s : Char) (l : List Char) :
    ([m, s].isPrefixOf l = true) ↔ ∃ r, l = m :: s :: r := by
  cases l with
  | nil => simp [List.isPrefixOf]
  | cons a t =>
    cases t with
    | nil => simp [List.isPrefixOf]
    | cons b r =>
      constructor
      · intro hp
        simp only [List.isPrefixOf, Bool.and_eq_true, beq_iff_eq] at hp
        exact ⟨r, by rw [hp.1, hp.2.1]⟩
      · rintro ⟨r2, hr⟩
        rw [hr]
        simp [List.isPrefixOf]

theorem startsNew_iff (l : List Char) : startsNewSentence l = true ↔
    (∃ c rest, l = c :: rest ∧ (('A' ≤ c ∧ c ≤ 'Z') ∨ ('0' ≤ c ∧ c ≤ '9'))) ∨
    (∃ m r, l = m :: ' ' :: r ∧ (m = '-' ∨ m = '*' ∨ m = '•')) := by
  cases l with
  | nil => simp [startsNewSentence]
  | cons c rest =>
    have hdash : (str "- ") = ['-', ' '] := rfl
    have hstar : (str "* ") = ['*', ' '] := rfl
    have hbull : (str "• ") = ['•', ' '] := rfl
    simp only [startsNewSentence, hdash, hstar, hbull, Bool.or_eq_true,
      Bool.and_eq_true, decide_eq_true_eq]
    constructor
    · rintro ((((⟨h1, h2⟩ | ⟨h1, h2⟩) | hp) | hp) | hp)
      · exact Or.inl ⟨c, rest, rfl, Or.inl ⟨h1, h2⟩⟩
      · exact Or.inl ⟨c, rest, rfl, Or.inr ⟨h1, h2⟩⟩
      · obtain ⟨r, hr⟩ := (isPrefixOf_two_iff '-' ' ' (c :: rest)).mp hp
        exact Or.inr ⟨'-', r, hr, Or.inl rfl⟩
      · obtain ⟨r, hr⟩ := (isPrefixOf_two_iff '*' ' ' (c :: rest)).mp hp
        exact Or.inr ⟨'*', r, hr, Or.inr (Or.inl rfl)⟩
      · obtain ⟨r, hr⟩ := (isPrefixOf_two_iff '•' ' ' (c :: rest)).mp hp
        exact Or.inr ⟨'•', r, hr, Or.inr (Or.inr rfl)⟩
    · rintro (⟨c2, rest2, heq, hc⟩ | ⟨m, r, heq, hm⟩)
      · obtain ⟨h1, h2⟩ : c = c2 ∧ rest = rest2 := by
          injection heq with ha hb
          exact ⟨ha, hb⟩
        subst h1
        exact Or.inl (Or.inl (Or.inl hc))
      · rcases hm with rfl | rfl | rfl
        · refine Or.inl (Or.inl (Or.inr ?_))
          rw [isPrefixOf_two_iff]
          exact ⟨r, heq⟩
        · refine Or.inl (Or.inr ?_)
          rw [isPrefixOf_two_iff]
          exact ⟨r, heq⟩
        · refine Or.inr ?_
          rw [isPrefixOf_two_iff]
          exact ⟨r, heq⟩

theorem startsNew_append (a x : List Char) (ha : a ≠ [])
    (h : startsNewSentence a = true) : startsNewSentence (a ++ x) = true := by
  rcases (startsNew_iff a).mp h with ⟨c, rest, rfl, hc⟩ | ⟨m, r, rfl, hm⟩
  · exact (startsNew_iff _).mpr (Or.inl ⟨c, rest ++ x, rfl, hc⟩)
  · exact (startsNew_iff _).mpr (Or.inr ⟨m, r ++ x, rfl, hm⟩)

theorem startsNew_collapseRuns (l : List Char)
    (h : startsNewSentence l = true) : startsNewSentence (collapseRuns l) = true := by
  rcases (startsNew_iff l).mp h with ⟨c, rest, rfl, hc⟩ | ⟨m, r, rfl, hm⟩
  · have hh := collapseRuns_head (c :: rest)
    cases hcr : collapseRuns (c :: rest) with
    | nil => rw [hcr] at hh; simp at hh
    | cons x t =>
      rw [hcr] at hh
      have hx : x = c := by simpa using hh
      refine (startsNew_iff _).mpr (Or.inl ⟨x, t, rfl, ?_⟩)
      rw [hx]
      exact hc
  · have hm' : m ≠ ' ' := by rcases hm with rfl | rfl | rfl <;> decide
    rw [collapseRuns_cons_cons, if_neg (fun hc2 => hm' hc2.1)]
    have hh := collapseRuns_head (' ' :: r)
    cases hcr : collapseRuns (' ' :: r) with
    | nil => rw [hcr] at hh; simp at hh
    | cons x t =>
      rw [hcr] at hh
      have hx : x = ' ' := by simpa using hh
      refine (startsNew_iff _).mpr (Or.inr ⟨m, t, ?_, hm⟩)
      rw [hx]

theorem endsWithPunct_collapseRuns (l : List Char) :
    endsWithPunct (collapseRuns l) = endsWithPunct l := by
  unfold endsWithPunct
  rw [collapseRuns_getLast]

theorem lineB_collapseRuns {a b : List Char} (h : lineB a b) :
    lineB (collapseRuns a) (collapseRuns b) := by
  rcases h with h | h
  · left
    rw [endsWithPunct_collapseRuns]
    exact h
  · right
    exact startsNew_collapseRuns b h

theorem LineOk_collapseRuns {l : List Char} (h : LineOk l) :
    LineOk (collapseRuns l) := by
  obtain ⟨hne, hh, hl, hnl, hcr⟩ := h
  refine ⟨collapseRuns_ne_nil hne, ?_, ?_, ?_, ?_⟩
  · intro c hc
    rw [collapseRuns_head] at hc
    exact hh c hc
  · intro c hc
    rw [collapseRuns_getLast] at hc
    exact hl c hc
  · intro hm
    exact hnl (collapseRuns_mem l _ hm)
  · intro hm
    exact hcr (collapseRuns_mem l _ hm)

theorem LineOk_join {a b : List Char} (ha : LineOk a) (hb : LineOk b) :
    LineOk (a ++ ' ' :: b) := by
  obtain ⟨hane, hah, hal, hanl, hacr⟩ := ha
  obtain ⟨hbne, hbh, hbl, hbnl, hbcr⟩ := hb
  refine ⟨by simp, ?_, ?_, ?_, ?_⟩
  · intro c hc
    rw [head?_append_left _ _ hane] at hc
    exact hah c hc
  · intro c hc
    rw [show (' ' :: b : List Char) = [' '] ++ b from rfl, ← List.append_assoc,
      getLast?_append_right _ _ hbne] at hc
    exact hbl c hc
  · intro hm
    rcases List.mem_append.mp hm with h | h
    · exact hanl h
    · rcases List.mem_cons.mp h with h | h
      · exact absurd h.symm (by decide)
      · exact hbnl h
  · intro hm
    rcases List.mem_append.mp hm with h | h
    · exact hacr h
    · rcases List.mem_cons.mp h with h | h
      · exact absurd h.symm (by decide)
      · exact hbcr h

/-- Invariant of the accumulator of the CleanNewlines line loop (kept in
reverse): every accumulated line is clean and adjacent lines (in original
order) satisfy the boundary relation. -/
def accOk (acc : List (List Char)) : Prop :=
  (∀ l ∈ acc, LineOk l) ∧ List.Chain' (fun a b => lineB b a) acc

theorem goTrim_LineOk {raw : List Char} (hnl : '\n' ∉ raw) (hcr : '\r' ∉ raw)
    (hne : goTrim raw ≠ []) : LineOk (goTrim raw) := by
  refine ⟨hne, goTrim_head_not_space raw, goTrim_last_not_space raw, ?_, ?_⟩
  · intro hm
    exact hnl (goTrim_mem raw _ hm)
  · intro hm
    exact hcr (goTrim_mem raw _ hm)

theorem cleanStep_nil_acc (raw : List Char) (h : goTrim raw ≠ []) :
    cleanStep [] raw = [goTrim raw] := by
  unfold cleanStep
  rw [if_neg h]

theorem cleanStep_cons (prev : List Char) (accRest : List (List Char))
    (raw : List Char) (h : goTrim raw ≠ []) :
    cleanStep (prev :: accRest) raw =
      if endsWithPunct prev = false ∧ startsNewSentence (goTrim raw) = false then
        (prev ++ ' ' :: goTrim raw) :: accRest
      else goTrim raw :: prev :: accRest := by
  unfold cleanStep
  rw [if_neg h]

theorem cleanStep_accOk (acc : List (List Char)) (raw : List Char)
    (hacc : accOk acc) (hnl : '\n' ∉ raw) (hcr : '\r' ∉ raw) :
    accOk (cleanStep acc raw) := by
  unfold cleanStep
  by_cases hne : goTrim raw = []
  · rw [if_pos hne]
    exact hacc
  · rw [if_neg hne]
    have hok : LineOk (goTrim raw) := goTrim_LineOk hnl hcr hne
    obtain ⟨hmem, hchain⟩ := hacc
    cases acc with
    | nil =>
      refine ⟨?_, List.chain'_singleton _⟩
      intro l hl
      rcases List.mem_singleton.mp hl with rfl
      exact hok
    | cons prev rest =>
      show accOk (if endsWithPunct prev = false ∧
          startsNewSentence (goTrim raw) = false then
          (prev ++ ' ' :: goTrim raw) :: rest
        else goTrim raw :: prev :: rest)
      have hprev : LineOk prev := hmem prev (List.mem_cons_self prev rest)
      by_cases hcond : endsWithPunct prev = false ∧
          startsNewSentence (goTrim raw) = false
      · rw [if_pos hcond]
        refine ⟨?_, ?_⟩
        · intro l hl
          rcases List.mem_cons.mp hl with rfl | hl
          · exact LineOk_join hprev hok
          · exact hmem l (List.mem_cons_of_mem prev hl)
        · cases rest with
          | nil => exact List.chain'_singleton _
          | cons r0 rest' =>
            rw [List.chain'_cons]
            have hold := List.chain'_cons.mp hchain
            refine ⟨?_, hold.2⟩
            rcases hold.1 with h | h
            · exact Or.inl h
            · exact Or.inr (startsNew_append prev (' ' :: goTrim raw) hprev.1 h)
      · rw [if_neg hcond]
        refine ⟨?_, ?_⟩
        · intro l hl
          rcases List.mem_cons.mp hl with rfl | hl
          · exact hok
          · exact hmem l hl
        · rw [List.chain'_cons]
          refine ⟨?_, hchain⟩
          by_cases hep : endsWithPunct prev = true

          · exact Or.inl hep
          · right
            rcases Decidable.not_and_iff_or_not .. |>.mp hcond with h | h
            · exact absurd (Bool.eq_false_iff.mpr fun hc => hep hc) h
            · cases hx : startsNewSentence (goTrim raw)
              · exact absurd hx h
              · rfl

theorem foldl_cleanStep_ok : ∀ (ls : List (List Char)) (acc : List (List Char)),
    accOk acc → (∀ l ∈ ls, '\n' ∉ l ∧ '\r' ∉ l) →
    accOk (ls.foldl cleanStep acc)
  | [], acc, hacc, _ => hacc
  | l :: ls', acc, hacc, hls => by
    rw [List.foldl_cons]
    exact foldl_cleanStep_ok ls' (cleanStep acc l)
      (cleanStep_accOk acc l hacc (hls l (List.mem_cons_self l ls')).1
        (hls l (List.mem_cons_self l ls')).2)
      (fun x hx => hls x (List.mem_cons_of_mem l hx))

theorem cleanLines_ok (ls : List (List Char))
    (h : ∀ l ∈ ls, '\n' ∉ l ∧ '\r' ∉ l) :
    (∀ l ∈ cleanLines ls, LineOk l) ∧ List.Chain' lineB (cleanLines ls) := by
  have hf := foldl_cleanStep_ok ls [] ⟨by simp, List.chain'_nil⟩ h
  unfold cleanLines
  constructor
  · intro l hl
    exact hf.1 l (List.mem_reverse.mp hl)
  · rw [List.chain'_reverse]
    exact hf.2

theorem foldl_cleanStep_frozen : ∀ (ls : List (List Char)) (prev : List Char)
    (accRest : List (List Char)),
    (∀ l ∈ ls, l ≠ [] ∧ goTrim l = l) → List.Chain' lineB (prev :: ls) →
    ls.foldl cleanStep (prev :: accRest) = ls.reverse ++ prev :: accRest
  | [], _, _, _, _ => rfl
  | l :: ls', prev, accRest, hok, hchain => by
    have hB : lineB prev l := (List.chain'_cons.mp hchain).1
    have hl := hok l (List.mem_cons_self l ls')
    rw [List.foldl_cons]
    have hstep : cleanStep (prev :: accRest) l = l :: prev :: accRest := by
      rw [cleanStep_cons prev accRest l (by rw [hl.2]; exact hl.1), hl.2, if_neg]
      rintro ⟨h1, h2⟩
      rcases hB with h | h
      · rw [h1] at h
        exact Bool.false_ne_true h
      · rw [h2] at h
        exact Bool.false_ne_true h
    rw [hstep, foldl_cleanStep_frozen ls' l (prev :: accRest)
      (fun x hx => hok x (List.mem_cons_of_mem l hx))
      (List.chain'_cons.mp hchain).2]
    simp

theorem cleanLines_id (ls : List (List Char))
    (hok : ∀ l ∈ ls, l ≠ [] ∧ goTrim l = l)
    (hchain : List.Chain' lineB ls) : cleanLines ls = ls := by
  cases ls with
  | nil => rfl
  | cons l rest =>
    unfold cleanLines
    have hl := hok l (List.mem_cons_self l rest)
    have hstep : cleanStep [] l = [l] := by
      rw [cleanStep_nil_acc l (by rw [hl.2]; exact hl.1), hl.2]
    rw [List.foldl_cons, hstep, foldl_cleanStep_frozen rest l []
      (fun x hx => hok x (List.mem_cons_of_mem l hx)) hchain]
    simp

/-! ## C1: distribution and reconstruction lemmas -/

theorem collapseRuns_cons_ne (c : Char) (x : List Char) (hc : c ≠ ' ') :
    collapseRuns (c :: x) = c :: collapseRuns x := by
  cases x with
  | nil => rfl
  | cons d t => rw [collapseRuns_cons_cons, if_neg (fun h => hc h.1)]

theorem collapseRuns_append : ∀ (a b : List Char),
    (∀ c, a.getLast? = some c → c ≠ ' ') →
    collapseRuns (a ++ b) = collapseRuns a ++ collapseRuns b
  | [], b, _ => rfl
  | [x], b, ha => by
    have hx : x ≠ ' ' := ha x rfl
    rw [List.cons_append, List.nil_append, collapseRuns_cons_ne x b hx]
    rfl
  | x :: y :: a', b, ha => by
    have ha2 : ∀ c, (y :: a').getLast? = some c → c ≠ ' ' := by
      intro c hc
      exact ha c (by rw [List.getLast?_cons_cons]; exact hc)
    by_cases hxy : x = ' ' ∧ y = ' '
    · calc collapseRuns ((x :: y :: a') ++ b)
          = collapseRuns ((y :: a') ++ b) := by
            rw [show ((x :: y :: a') ++ b : List Char) = x :: y :: (a' ++ b) from rfl,
              collapseRuns_cons_cons, if_pos hxy]
            rfl
        _ = collapseRuns (y :: a') ++ collapseRuns b :=
            collapseRuns_append (y :: a') b ha2
        _ = collapseRuns (x :: y :: a') ++ collapseRuns b := by
            rw [collapseRuns_cons_cons, if_pos hxy]
    · calc collapseRuns ((x :: y :: a') ++ b)
          = x :: collapseRuns ((y :: a') ++ b) := by
            rw [show ((x :: y :: a') ++ b : List Char) = x :: y :: (a' ++ b) from rfl,
              collapseRuns_cons_cons, if_neg hxy]
            rfl
        _ = x :: (collapseRuns (y :: a') ++ collapseRuns b) := by
            rw [collapseRuns_append (y :: a') b ha2]
        _ = collapseRuns (x :: y :: a') ++ collapseRuns b := by
            rw [collapseRuns_cons_cons, if_neg hxy]
            rfl

theorem collapseRuns_joinSep_lines : ∀ ls : List (List Char),
    (∀ l ∈ ls, ∀ c, l.getLast? = some c → goIsSpace c = false) →
    collapseRuns (joinSep [ '\n' ] ls) = joinSep [ '\n' ] (ls.map collapseRuns)
  | [], _ => rfl
  | [l], _ => rfl
  | l :: l' :: r, h => by
    have hlast : ∀ c, l.getLast? = some c → c ≠ ' ' := by
      intro c hc heq
      have := h l (List.mem_cons_self l _) c hc
      rw [heq] at this
      simp [goIsSpace] at this
    simp only [joinSep, List.map_cons]
    rw [List.append_assoc, show ([ '\n' ] ++ joinSep [ '\n' ] (l' :: r) :
        List Char) = '\n' :: joinSep [ '\n' ] (l' :: r) from rfl,
      collapseRuns_append l _ hlast,
      collapseRuns_cons_ne '\n' _ (by decide),
      collapseRuns_joinSep_lines (l' :: r)
        (fun x hx => h x (List.mem_cons_of_mem l hx))]
    cases r <;> simp [joinSep, List.append_assoc]

theorem collapseRuns_joinSep_paras : ∀ ws : List (List Char),
    (∀ w ∈ ws, ∀ c, w.getLast? = some c → goIsSpace c = false) →
    collapseRuns (joinSep [ '\n', '\n' ] ws) =
      joinSep [ '\n', '\n' ] (ws.map collapseRuns)
  | [], _ => rfl
  | [w], _ => rfl
  | w :: w' :: r, h => by
    have hlast : ∀ c, w.getLast? = some c → c ≠ ' ' := by
      intro c hc heq
      have := h w (List.mem_cons_self w _) c hc
      rw [heq] at this
      simp [goIsSpace] at this
    simp only [joinSep, List.map_cons]
    rw [List.append_assoc, show ([ '\n', '\n' ] ++ joinSep [ '\n', '\n' ] (w' :: r) :
        List Char) = '\n' :: '\n' :: joinSep [ '\n', '\n' ] (w' :: r) from rfl,
      collapseRuns_append w _ hlast,
      collapseRuns_cons_ne '\n' _ (by decide),
      collapseRuns_cons_ne '\n' _ (by decide),
      collapseRuns_joinSep_paras (w' :: r)
        (fun x hx => h x (List.mem_cons_of_mem w hx))]
    cases r <;> simp [joinSep, List.append_assoc]

theorem hasTwoSp_append : ∀ (a b : List Char), hasTwoSp a = false →
    hasTwoSp b = false →
    (∀ c d, a.getLast? = some c → b.head? = some d → ¬ (c = ' ' ∧ d = ' ')) →
    hasTwoSp (a ++ b) = false
  | [], b, _, hb, _ => hb
  | [x], b, _, hb, hx => by
    rw [List.cons_append, List.nil_append]
    cases b with
    | nil => rfl
    | cons y b' =>
      simp only [hasTwoSp, Bool.or_eq_false_iff, Bool.and_eq_false_iff,
        decide_eq_false_iff_not]
      constructor
      · by_cases hxs : x = ' '
        · right
          intro hy
          exact hx x y rfl rfl ⟨hxs, hy⟩
        · exact Or.inl hxs
      · exact hb
  | x :: y :: a', b, ha, hb, hx => by
    simp only [hasTwoSp, Bool.or_eq_false_iff, Bool.and_eq_false_iff,
      decide_eq_false_iff_not] at ha
    rw [List.cons_append]
    have hrec : hasTwoSp ((y :: a') ++ b) = false :=
      hasTwoSp_append (y :: a') b ha.2 hb
        (fun c d hc hd => hx c d (by rw [List.getLast?_cons_cons]; exact hc) hd)
    rw [List.cons_append] at hrec
    simp only [hasTwoSp, Bool.or_eq_false_iff, Bool.and_eq_false_iff,
      decide_eq_false_iff_not]
    exact ⟨ha.1, hrec⟩

theorem hasNlPair_append : ∀ (a b : List Char), hasNlPair a = false →
    hasNlPair b = false →
    (∀ c d, a.getLast? = some c → b.head? = some d → ¬ (c = '\n' ∧ d = '\n')) →
    hasNlPair (a ++ b) = false
  | [], b, _, hb, _ => hb
  | [x], b, _, hb, hx => by
    rw [List.cons_append, List.nil_append]
    cases b with
    | nil => rfl
    | cons y b' =>
      simp only [hasNlPair, Bool.or_eq_false_iff, Bool.and_eq_false_iff,
        decide_eq_false_iff_not]
      constructor
      · by_cases hxs : x = '\n'
        · right
          intro hy
          exact hx x y rfl rfl ⟨hxs, hy⟩
        · exact Or.inl hxs
      · exact hb
  | x :: y :: a', b, ha, hb, hx => by
    simp only [hasNlPair, Bool.or_eq_false_iff, Bool.and_eq_false_iff,
      decide_eq_false_iff_not] at ha
    rw [List.cons_append]
    have hrec : hasNlPair ((y :: a') ++ b) = false :=
      hasNlPair_append (y :: a') b ha.2 hb
        (fun c d hc hd => hx c d (by rw [List.getLast?_cons_cons]; exact hc) hd)
    rw [List.cons_append] at hrec
    simp only [hasNlPair, Bool.or_eq_false_iff, Bool.and_eq_false_iff,
      decide_eq_false_iff_not]
    exact ⟨ha.1, hrec⟩

theorem splitNl_joinSep : ∀ q : List (List Char), q ≠ [] →
    (∀ l ∈ q, '\n' ∉ l) → splitNl (joinSep [ '\n' ] q) = q
  | [], h, _ => absurd rfl h
  | [l], _, hnl => splitNl_no_nl l (hnl l (List.mem_singleton.mpr rfl))
  | l :: l' :: r, _, hnl => by
    simp only [joinSep]
    rw [List.append_assoc, show ([ '\n' ] ++ joinSep [ '\n' ] (l' :: r) :
        List Char) = '\n' :: joinSep [ '\n' ] (l' :: r) from rfl,
      splitNl_append_nl, splitNl_no_nl l (hnl l (List.mem_cons_self l _)),
      splitNl_joinSep (l' :: r) (by simp)
        (fun x hx => hnl x (List.mem_cons_of_mem l hx))]
    rfl

theorem splitNN_joinSep : ∀ ws : List (List Char), ws ≠ [] →
    (∀ w ∈ ws, hasNlPair w = false ∧ (∀ c, w.getLast? = some c → c ≠ '\n')) →
    splitNN (joinSep [ '\n', '\n' ] ws) = ws
  | [], h, _ => absurd rfl h
  | [w], _, hall => splitNN_of_no_pair w (hall w (List.mem_singleton.mpr rfl)).1
  | w :: w' :: r, _, hall => by
    simp only [joinSep]
    rw [List.append_assoc, show ([ '\n', '\n' ] ++ joinSep [ '\n', '\n' ] (w' :: r) :
        List Char) = '\n' :: '\n' :: joinSep [ '\n', '\n' ] (w' :: r) from rfl,
      splitNN_append_pair w (hall w (List.mem_cons_self w _)).1
        (hall w (List.mem_cons_self w _)).2,
      splitNN_joinSep (w' :: r) (by simp)
        (fun x hx => hall x (List.mem_cons_of_mem w hx))]

theorem replaceCrLf_no_cr : ∀ z : List Char, '\r' ∉ z → replaceCrLf z = z
  | [], _ => rfl
  | [c], _ => rfl
  | c :: d :: rest, h => by
    have hc : ¬ (c = '\r' ∧ d = '\n') := by
      rintro ⟨rfl, -⟩
      exact h (List.mem_cons_self _ _)
    simp only [replaceCrLf, if_neg hc]
    rw [replaceCrLf_no_cr (d :: rest) (fun hm => h (List.mem_cons_of_mem c hm))]

theorem replaceCr_no_cr (z : List Char) (h : '\r' ∉ z) : replaceCr z = z := by
  unfold replaceCr
  induction z with
  | nil => rfl
  | cons c t ih =>
    simp only [List.map_cons]
    rw [if_neg (fun hc => h (by rw [hc]; exact List.mem_cons_self _ _)),
      ih (fun hm => h (List.mem_cons_of_mem c hm))]

theorem replaceCr_not_mem_cr (z : List Char) : '\r' ∉ replaceCr z := by
  unfold replaceCr
  intro hm
  obtain ⟨a, _, ha⟩ := List.mem_map.mp hm
  by_cases hc : a = '\r' <;> simp [hc] at ha

/-! ## C1: output characterization and the fixpoint argument -/

/-- The paragraph structure CleanNewlines builds before joining: the
cleaned line lists of each paragraph that kept at least one line. -/
def passQS (t : List Char) : List (List (List Char)) :=
  (splitNN (replaceCr (replaceCrLf t))).filterMap fun p =>
    let cleanedLines := cleanLines (splitNl p)
    if cleanedLines = [] then none else some cleanedLines

theorem cleanedParas_eq_map : ∀ ps : List (List Char),
    (ps.filterMap fun p =>
      let cleanedLines := cleanLines (splitNl p)
      if cleanedLines = [] then none else some (joinSep [ '\n' ] cleanedLines)) =
    ((ps.filterMap fun p =>
      let cleanedLines := cleanLines (splitNl p)
      if cleanedLines = [] then none else some cleanedLines).map (joinSep [ '\n' ]))
  | [] => rfl
  | p :: ps' => by
    simp only [List.filterMap_cons]
    by_cases h : cleanLines (splitNl p) = [] <;>
      simp [h, cleanedParas_eq_map ps']

theorem CleanNewlines_eq_pass (t : List Char) :
    CleanNewlines t = goTrim (collapseSpaces
      (joinSep [ '\n', '\n' ] ((passQS t).map (joinSep [ '\n' ])))) := by
  simp only [CleanNewlines, passQS, cleanedParas_eq_map]

theorem passQS_props (t : List Char) : ∀ q ∈ passQS t,
    q ≠ [] ∧ (∀ l ∈ q, LineOk l) ∧ List.Chain' lineB q := by
  intro q hq
  unfold passQS at hq
  obtain ⟨p, hp, hfp⟩ := List.mem_filterMap.mp hq
  by_cases h : cleanLines (splitNl p) = []
  · simp [h] at hfp
  · simp only [if_neg h, Option.some.injEq] at hfp
    have hlines : ∀ l ∈ splitNl p, '\n' ∉ l ∧ '\r' ∉ l := by
      intro l hl
      refine ⟨splitNl_mem_no_nl p l hl, ?_⟩
      intro hm
      have h1 : '\r' ∈ p := splitNl_mem_subset p l hl '\r' hm
      have h2 : '\r' ∈ replaceCr (replaceCrLf t) :=
        splitNN_mem_subset _ p hp '\r' h1
      exact replaceCr_not_mem_cr _ h2
    obtain ⟨hok, hchain⟩ := cleanLines_ok (splitNl p) hlines
    rw [← hfp]
    exact ⟨h, hok, hchain⟩

theorem piece_last_nonspace (q : List (List Char))
    (hok : ∀ l ∈ q, LineOk l) :
    ∀ c, (joinSep [ '\n' ] q).getLast? = some c → goIsSpace c = false := by
  intro c hc
  obtain ⟨l, hl, hlast⟩ := joinSep_getLast_mem [ '\n' ] q c
    (fun x hx => (hok x hx).1) hc
  exact (hok l hl).2.2.1 c hlast

theorem piece_head_nonspace (q : List (List Char)) (hne : q ≠ [])
    (hok : ∀ l ∈ q, LineOk l) :
    ∀ c, (joinSep [ '\n' ] q).head? = some c → goIsSpace c = false := by
  intro c hc
  cases q with
  | nil => exact absurd rfl hne
  | cons l ls =>
    rw [joinSep_head _ l ls (hok l (List.mem_cons_self l ls)).1] at hc
    exact (hok l (List.mem_cons_self l ls)).2.1 c hc

theorem joinSep_nl_cons_cons (l l' : List Char) (r : List (List Char)) :
    joinSep [ '\n' ] (l :: l' :: r) =
      l ++ '\n' :: joinSep [ '\n' ] (l' :: r) := by
  simp [joinSep, List.append_assoc]

theorem joinSep_nn_cons_cons (w w' : List Char) (r : List (List Char)) :
    joinSep [ '\n', '\n' ] (w :: w' :: r) =
      w ++ '\n' :: '\n' :: joinSep [ '\n', '\n' ] (w' :: r) := by
  simp [joinSep, List.append_assoc]

theorem piece_hasNlPair : ∀ q : List (List Char), (∀ l ∈ q, LineOk l) →
    hasNlPair (joinSep [ '\n' ] q) = false
  | [], _ => rfl
  | [l], hok => hasNlPair_of_no_nl l (hok l (List.mem_singleton.mpr rfl)).2.2.2.1
  | l :: l' :: r, hok => by
    have hrest : ∀ x ∈ l' :: r, LineOk x :=
      fun x hx => hok x (List.mem_cons_of_mem l hx)
    rw [joinSep_nl_cons_cons]
    refine hasNlPair_append l _
      (hasNlPair_of_no_nl l (hok l (List.mem_cons_self l _)).2.2.2.1) ?_ ?_
    · cases hJc : joinSep [ '\n' ] (l' :: r) with
      | nil =>
        exact absurd hJc (joinSep_ne_nil _ _ (by simp)
          (fun x hx => (hrest x hx).1))
      | cons j J' =>
        have hjl : (joinSep [ '\n' ] (l' :: r)).head? = l'.head? :=
          joinSep_head _ l' r (hrest l' (List.mem_cons_self l' r)).1
        rw [hJc] at hjl
        have hjn : j ≠ '\n' := by
          cases hl' : l'.head? with
          | none =>
            rw [hl'] at hjl
            simp at hjl
          | some c0 =>
            rw [hl'] at hjl
            have hjc : j = c0 := by simpa using hjl
            intro hj
            have hns := (hrest l' (List.mem_cons_self l' r)).2.1 c0 hl'
            rw [← hjc, hj] at hns
            simp [goIsSpace] at hns
        simp only [hasNlPair, Bool.or_eq_false_iff, Bool.and_eq_false_iff,
          decide_eq_false_iff_not]
        refine ⟨Or.inr hjn, ?_⟩
        rw [← hJc]
        exact piece_hasNlPair (l' :: r) hrest
    · intro c d hc hd
      rintro ⟨hcn, -⟩
      have := (hok l (List.mem_cons_self l _)).2.2.1 c hc
      rw [hcn] at this
      simp [goIsSpace] at this

theorem piece_hasTwoSp : ∀ q : List (List Char),
    (∀ l ∈ q, LineOk l ∧ hasTwoSp l = false) →
    hasTwoSp (joinSep [ '\n' ] q) = false
  | [], _ => rfl
  | [l], hok => (hok l (List.mem_singleton.mpr rfl)).2
  | l :: l' :: r, hok => by
    have hrest : ∀ x ∈ l' :: r, LineOk x ∧ hasTwoSp x = false :=
      fun x hx => hok x (List.mem_cons_of_mem l hx)
    rw [joinSep_nl_cons_cons]
    refine hasTwoSp_append l _ (hok l (List.mem_cons_self l _)).2 ?_ ?_
    · rw [hasTwoSp_cons_ne '\n' _ (by decide)]
      exact piece_hasTwoSp (l' :: r) hrest
    · intro c d hc hd
      rintro ⟨hcn, -⟩
      have := (hok l (List.mem_cons_self l _)).1.2.2.1 c hc
      rw [hcn] at this
      simp [goIsSpace] at this

theorem whole_hasTwoSp : ∀ ws : List (List Char),
    (∀ w ∈ ws, hasTwoSp w = false ∧
      (∀ c, w.getLast? = some c → goIsSpace c = false)) →
    hasTwoSp (joinSep [ '\n', '\n' ] ws) = false
  | [], _ => rfl
  | [w], h => (h w (List.mem_singleton.mpr rfl)).1
  | w :: w' :: r, h => by
    have hrest : ∀ x ∈ w' :: r, hasTwoSp x = false ∧
        (∀ c, x.getLast? = some c → goIsSpace c = false) :=
      fun x hx => h x (List.mem_cons_of_mem w hx)
    rw [joinSep_nn_cons_cons]
    refine hasTwoSp_append w _ (h w (List.mem_cons_self w _)).1 ?_ ?_
    · rw [hasTwoSp_cons_ne '\n' _ (by decide),
        hasTwoSp_cons_ne '\n' _ (by decide)]
      exact whole_hasTwoSp (w' :: r) hrest
    · intro c d hc hd
      rintro ⟨hcn, -⟩
      have := (h w (List.mem_cons_self w _)).2 c hc
      rw [hcn] at this
      simp [goIsSpace] at this

theorem assembled_goTrim (QS : List (List (List Char))) (hne : QS ≠ [])
    (hq : ∀ q ∈ QS, q ≠ [] ∧ (∀ l ∈ q, LineOk l)) :
    goTrim (joinSep [ '\n', '\n' ] (QS.map (joinSep [ '\n' ]))) =
      joinSep [ '\n', '\n' ] (QS.map (joinSep [ '\n' ])) := by
  apply goTrim_eq_self
  · intro c hc
    cases QS with
    | nil => exact absurd rfl hne
    | cons q qs =>
      have hqp := hq q (List.mem_cons_self q qs)
      rw [List.map_cons, joinSep_head _ _ _
        (joinSep_ne_nil _ q hqp.1 (fun x hx => (hqp.2 x hx).1))] at hc
      exact piece_head_nonspace q hqp.1 hqp.2 c hc
  · intro c hc
    obtain ⟨w, hw, hlast⟩ := joinSep_getLast_mem _ _ c (by
      intro w hw
      obtain ⟨q, hqm, rfl⟩ := List.mem_map.mp hw
      exact joinSep_ne_nil _ q (hq q hqm).1
        (fun x hx => ((hq q hqm).2 x hx).1)) hc
    obtain ⟨q, hqm, rfl⟩ := List.mem_map.mp hw
    exact piece_last_nonspace q (hq q hqm).2 c hlast

theorem assembled_no_cr (QS : List (List (List Char)))
    (hq : ∀ q ∈ QS, ∀ l ∈ q, '\r' ∉ l) :
    '\r' ∉ joinSep [ '\n', '\n' ] (QS.map (joinSep [ '\n' ])) := by
  intro hm
  rcases joinSep_mem _ _ _ hm with h | ⟨w, hw, hcw⟩
  · simp at h
  · obtain ⟨q, hqm, rfl⟩ := List.mem_map.mp hw
    rcases joinSep_mem _ _ _ hcw with h | ⟨l, hl, hcl⟩
    · simp at h
    · exact hq q hqm l hl hcl

theorem filterMap_clean_of_id : ∀ QS : List (List (List Char)),
    (∀ q ∈ QS, cleanLines (splitNl (joinSep [ '\n' ] q)) = q ∧ q ≠ []) →
    ((QS.map (joinSep [ '\n' ])).filterMap fun p =>
      let cleanedLines := cleanLines (splitNl p)
      if cleanedLines = [] then none else some cleanedLines) = QS
  | [], _ => rfl
  | q :: r, h => by
    have hqp := h q (List.mem_cons_self q r)
    simp only [List.map_cons, List.filterMap_cons, hqp.1, if_neg hqp.2]
    rw [filterMap_clean_of_id r (fun x hx => h x (List.mem_cons_of_mem q hx))]

/-- The CleanNewlines fixpoint: a string assembled from clean collapsed
lines is returned unchanged by CleanNewlines. -/
theorem CleanNewlines_fixed (QS : List (List (List Char))) (hne : QS ≠ [])
    (hq : ∀ q ∈ QS, q ≠ [] ∧ (∀ l ∈ q, LineOk l ∧ hasTwoSp l = false) ∧
      List.Chain' lineB q) :
    CleanNewlines (joinSep [ '\n', '\n' ] (QS.map (joinSep [ '\n' ]))) =
      joinSep [ '\n', '\n' ] (QS.map (joinSep [ '\n' ])) := by
  have hq1 : ∀ q ∈ QS, q ≠ [] ∧ (∀ l ∈ q, LineOk l) :=
    fun q hqm => ⟨(hq q hqm).1, fun l hl => ((hq q hqm).2.1 l hl).1⟩
  have hnocr : '\r' ∉ joinSep [ '\n', '\n' ] (QS.map (joinSep [ '\n' ])) :=
    assembled_no_cr QS (fun q hqm l hl => ((hq1 q hqm).2 l hl).2.2.2.2)
  have hsplit : splitNN (replaceCr (replaceCrLf
      (joinSep [ '\n', '\n' ] (QS.map (joinSep [ '\n' ]))))) =
      QS.map (joinSep [ '\n' ]) := by
    rw [replaceCrLf_no_cr _ hnocr, replaceCr_no_cr _ hnocr]
    apply splitNN_joinSep
    · intro hnil
      rw [List.map_eq_nil_iff] at hnil
      exact hne hnil
    · intro w hw
      obtain ⟨q, hqm, rfl⟩ := List.mem_map.mp hw
      refine ⟨piece_hasNlPair q (hq1 q hqm).2, ?_⟩
      intro c hc hcn
      have := piece_last_nonspace q (hq1 q hqm).2 c hc
      rw [hcn] at this
      simp [goIsSpace] at this
  have hpass : passQS (joinSep [ '\n', '\n' ] (QS.map (joinSep [ '\n' ]))) = QS := by
    unfold passQS
    rw [hsplit]
    apply filterMap_clean_of_id
    intro q hqm
    refine ⟨?_, (hq1 q hqm).1⟩
    rw [splitNl_joinSep q (hq1 q hqm).1
      (fun l hl => ((hq1 q hqm).2 l hl).2.2.2.1)]
    exact cleanLines_id q
      (fun l hl => ⟨((hq1 q hqm).2 l hl).1, LineOk_trim ((hq1 q hqm).2 l hl)⟩)
      (hq q hqm).2.2
  rw [CleanNewlines_eq_pass, hpass,
    collapseSpaces_of_not_hasTwoSp _ (whole_hasTwoSp (QS.map (joinSep [ '\n' ])) (by
      intro w hw
      obtain ⟨q, hqm, rfl⟩ := List.mem_map.mp hw
      exact ⟨piece_hasTwoSp q (hq q hqm).2.1, piece_last_nonspace q (hq1 q hqm).2⟩)),
    assembled_goTrim QS hne hq1]

/-- Every CleanNewlines output is empty or an assembly of clean collapsed
lines with sentence boundaries between adjacent lines. -/
theorem CleanNewlines_shape (t : List Char) : CleanNewlines t = [] ∨
    ∃ QS : List (List (List Char)), QS ≠ [] ∧
      (∀ q ∈ QS, q ≠ [] ∧ (∀ l ∈ q, LineOk l ∧ hasTwoSp l = false) ∧
        List.Chain' lineB q) ∧
      CleanNewlines t = joinSep [ '\n', '\n' ] (QS.map (joinSep [ '\n' ])) := by
  cases hq0 : passQS t with
  | nil =>
    left
    rw [CleanNewlines_eq_pass t, hq0]
    rfl
  | cons q0 qs0 =>
    right
    refine ⟨(passQS t).map (List.map collapseRuns), ?_, ?_, ?_⟩
    · rw [hq0]
      simp
    · intro q hqm
      obtain ⟨q1, hq1m, rfl⟩ := List.mem_map.mp hqm
      obtain ⟨hq1ne, hq1ok, hq1chain⟩ := passQS_props t q1 hq1m
      refine ⟨by simpa using hq1ne, ?_, ?_⟩
      · intro l hl
        obtain ⟨l1, hl1, rfl⟩ := List.mem_map.mp hl
        exact ⟨LineOk_collapseRuns (hq1ok l1 hl1), hasTwoSp_collapseRuns l1⟩
      · rw [List.chain'_map]
        exact List.Chain'.imp (fun a b h => lineB_collapseRuns h) hq1chain
    · rw [CleanNewlines_eq_pass t, collapseSpaces_eq_collapseRuns,
        collapseRuns_joinSep_paras _ (by
          intro w hw
          obtain ⟨q1, hq1m, rfl⟩ := List.mem_map.mp hw
          exact piece_last_nonspace q1 (passQS_props t q1 hq1m).2.1)]
      have hmapmap : ((passQS t).map (joinSep [ '\n' ])).map collapseRuns =
          ((passQS t).map (List.map collapseRuns)).map (joinSep [ '\n' ]) := by
        rw [List.map_map, List.map_map]
        apply List.map_congr_left
        intro q1 hq1m
        exact collapseRuns_joinSep_lines q1
          (fun l hl => ((passQS_props t q1 hq1m).2.1 l hl).2.2.1)
      rw [hmapmap]
      apply assembled_goTrim
      · cases hq0' : passQS t with
        | nil => rw [hq0'] at hq0; exact absurd hq0 (by simp)
        | cons a b => simp [hq0']
      · intro q hqm
        obtain ⟨q1, hq1m, rfl⟩ := List.mem_map.mp hqm
        obtain ⟨hq1ne, hq1ok, -⟩ := passQS_props t q1 hq1m
        refine ⟨by simpa using hq1ne, ?_⟩
        intro l hl
        obtain ⟨l1, hl1, rfl⟩ := List.mem_map.mp hl
        exact LineOk_collapseRuns (hq1ok l1 hl1)

/-- C1: the newline normalizer is idempotent: for every input string,
CleanNewlines (CleanNewlines t) = CleanNewlines t. -/
theorem claim_C1_cleanNewlines_idempotent (text : List Char) :
    CleanNewlines (CleanNewlines text) = CleanNewlines text := by
  rcases CleanNewlines_shape text with h | ⟨QS, hne, hprops, heq⟩
  · rw [h]
    rfl
  · rw [heq]
    exact CleanNewlines_fixed QS hne hprops

/-! ## C8: idempotence of cleanHTML -/

theorem goTrim_eq_nil_iff (l : List Char) :
    goTrim l = [] ↔ ∀ c ∈ l, goIsSpace c = true := by
  unfold goTrim
  rw [List.reverse_eq_nil_iff, List.dropWhile_eq_nil_iff]
  constructor
  · intro h c hc
    have hc2 : c ∈ l.takeWhile goIsSpace ++ l.dropWhile goIsSpace := by
      rw [List.takeWhile_append_dropWhile]
      exact hc
    rcases List.mem_append.mp hc2 with h1 | h1
    · exact List.mem_takeWhile_imp h1
    · exact h c (List.mem_reverse.mpr h1)
  · intro h c hc
    exact h c ((List.dropWhile_sublist goIsSpace).mem (List.mem_reverse.mp hc))

theorem goTrim_eq_nil_filter (l : List Char) :
    goTrim l = [] ↔ l.filter (fun c => !goIsSpace c) = [] := by
  rw [goTrim_eq_nil_iff, List.filter_eq_nil_iff]
  constructor
  · intro h c hc
    simp [h c hc]
  · intro h c hc
    have := h c hc
    simpa using this

mutual

/-- No script, style or noscript element anywhere in the tree. -/
def scriptFree : Html → Bool
  | .text _ => true
  | .comment _ => true
  | .elem tag _ cs =>
    if tag = str "script" ∨ tag = str "style" ∨ tag = str "noscript" then false
    else scriptFreeList cs

def scriptFreeList : List Html → Bool
  | [] => true
  | h :: t => scriptFree h && scriptFreeList t

end

mutual

/-- No comment node anywhere in the tree. -/
def commentFree : Html → Bool
  | .text _ => true
  | .comment _ => false
  | .elem _ _ cs => commentFreeList cs

def commentFreeList : List Html → Bool
  | [] => true
  | h :: t => commentFree h && commentFreeList t

end

mutual

/-- No p or div element with whitespace-only text anywhere in the tree. -/
def noEmptyPD : Html → Bool
  | .text _ => true
  | .comment _ => true
  | .elem tag _ cs =>
    if (tag = str "p" ∨ tag = str "div") ∧ goTrim (goTextList cs) = [] then false
    else noEmptyPDList cs

def noEmptyPDList : List Html → Bool
  | [] => true
  | h :: t => noEmptyPD h && noEmptyPDList t

end

mutual

theorem removeScripts_some_free : ∀ (h k : Html),
    removeScripts h = some k → scriptFree k = true
  | .text s, k, hk => by
    simp only [removeScripts, Option.some.injEq] at hk
    subst hk
    rfl
  | .comment s, k, hk => by
    simp only [removeScripts, Option.some.injEq] at hk
    subst hk
    rfl
  | .elem tag attrs cs, k, hk => by
    simp only [removeScripts] at hk
    by_cases hcond : tag = str "script" ∨ tag = str "style" ∨ tag = str "noscript"
    · rw [if_pos hcond] at hk
      exact absurd hk (by simp)
    · rw [if_neg hcond] at hk
      obtain rfl := Option.some.inj hk
      simp only [scriptFree, if_neg hcond]
      exact removeScriptsList_free cs

theorem removeScriptsList_free : ∀ ns : List Html,
    scriptFreeList (removeScriptsList ns) = true
  | [] => rfl
  | h :: t => by
    simp only [removeScriptsList]
    cases hk : removeScripts h with
    | none => exact removeScriptsList_free t
    | some k =>
      simp only [scriptFreeList, Bool.and_eq_true]
      exact ⟨removeScripts_some_free h k hk, removeScriptsList_free t⟩

end

mutual

theorem removeScripts_id : ∀ h : Html, scriptFree h = true → removeScripts h = some h
  | .text s, _ => rfl
  | .comment s, _ => rfl
  | .elem tag attrs cs, hf => by
    simp only [scriptFree] at hf
    by_cases hcond : tag = str "script" ∨ tag = str "style" ∨ tag = str "noscript"
    · rw [if_pos hcond] at hf
      exact absurd hf (by simp)
    · rw [if_neg hcond] at hf
      simp only [removeScripts, if_neg hcond, removeScriptsList_id cs hf]

theorem removeScriptsList_id : ∀ ns : List Html,
    scriptFreeList ns = true → removeScriptsList ns = ns
  | [], _ => rfl
  | h :: t, hf => by
    simp only [scriptFreeList, Bool.and_eq_true] at hf
    simp only [removeScriptsList, removeScripts_id h hf.1]
    rw [removeScriptsList_id t hf.2]

end

mutual

theorem removeComments_some_cf : ∀ (h k : Html),
    removeComments h = some k → commentFree k = true
  | .text s, k, hk => by
    simp only [removeComments, Option.some.injEq] at hk
    subst hk
    rfl
  | .comment s, k, hk => by
    simp [removeComments] at hk
  | .elem tag attrs cs, k, hk => by
    simp only [removeComments, Option.some.injEq] at hk
    subst hk
    simp only [commentFree]
    exact removeCommentsList_cf cs

theorem removeCommentsList_cf : ∀ ns : List Html,
    commentFreeList (removeCommentsList ns) = true
  | [] => rfl
  | h :: t => by
    simp only [removeCommentsList]
    cases hk : removeComments h with
    | none => exact removeCommentsList_cf t
    | some k =>
      simp only [commentFreeList, Bool.and_eq_true]
      exact ⟨removeComments_some_cf h k hk, removeCommentsList_cf t⟩

end

mutual

theorem removeComments_id : ∀ h : Html, commentFree h = true → removeComments h = some h
  | .text s, _ => rfl
  | .comment s, hc => by simp [commentFree] at hc
  | .elem tag attrs cs, hc => by
    simp only [commentFree] at hc
    simp only [removeComments, removeCommentsList_id cs hc]

theorem removeCommentsList_id : ∀ ns : List Html,
    commentFreeList ns = true → removeCommentsList ns = ns
  | [], _ => rfl
  | h :: t, hc => by
    simp only [commentFreeList, Bool.and_eq_true] at hc
    simp only [removeCommentsList, removeComments_id h hc.1]
    rw [removeCommentsList_id t hc.2]

end

mutual

theorem removeComments_pres_sf : ∀ (h k : Html), scriptFree h = true →
    removeComments h = some k → scriptFree k = true
  | .text s, k, _, hk => by
    simp only [removeComments, Option.some.injEq] at hk
    subst hk
    rfl
  | .comment s, k, _, hk => by simp [removeComments] at hk
  | .elem tag attrs cs, k, hf, hk => by
    simp only [removeComments, Option.some.injEq] at hk
    subst hk
    simp only [scriptFree] at hf ⊢
    by_cases hcond : tag = str "script" ∨ tag = str "style" ∨ tag = str "noscript"
    · rw [if_pos hcond] at hf
      exact absurd hf (by simp)
    · rw [if_neg hcond] at hf ⊢
      exact removeCommentsList_pres_sf cs hf

theorem removeCommentsList_pres_sf : ∀ ns : List Html, scriptFreeList ns = true →
    scriptFreeList (removeCommentsList ns) = true
  | [], _ => rfl
  | h :: t, hf => by
    simp only [scriptFreeList, Bool.and_eq_true] at hf
    simp only [removeCommentsList]
    cases hk : removeComments h with
    | none => exact removeCommentsList_pres_sf t hf.2
    | some k =>
      simp only [scriptFreeList, Bool.and_eq_true]
      exact ⟨removeComments_pres_sf h k hf.1 hk, removeCommentsList_pres_sf t hf.2⟩

end

mutual

theorem removeEmptyPDiv_pres_sf : ∀ (h k : Html), scriptFree h = true →
    removeEmptyPDiv h = some k → scriptFree k = true
  | .text s, k, _, hk => by
    simp only [removeEmptyPDiv, Option.some.injEq] at hk
    subst hk
    rfl
  | .comment s, k, _, hk => by
    simp only [removeEmptyPDiv, Option.some.injEq] at hk
    subst hk
    rfl
  | .elem tag attrs cs, k, hf, hk => by
    simp only [removeEmptyPDiv] at hk
    by_cases hcond : (tag = str "p" ∨ tag = str "div") ∧ goTrim (goTextList cs) = []
    · rw [if_pos hcond] at hk
      exact absurd hk (by simp)
    · rw [if_neg hcond] at hk
      obtain rfl := Option.some.inj hk
      simp only [scriptFree] at hf ⊢
      by_cases hsc : tag = str "script" ∨ tag = str "style" ∨ tag = str "noscript"
      · rw [if_pos hsc] at hf
        exact absurd hf (by simp)
      · rw [if_neg hsc] at hf ⊢
        exact removeEmptyPDivList_pres_sf cs hf

theorem removeEmptyPDivList_pres_sf : ∀ ns : List Html, scriptFreeList ns = true →
    scriptFreeList (removeEmptyPDivList ns) = true
  | [], _ => rfl
  | h :: t, hf => by
    simp only [scriptFreeList, Bool.and_eq_true] at hf
    simp only [removeEmptyPDivList]
    cases hk : removeEmptyPDiv h with
    | none => exact removeEmptyPDivList_pres_sf t hf.2
    | some k =>
      simp only [scriptFreeList, Bool.and_eq_true]
      exact ⟨removeEmptyPDiv_pres_sf h k hf.1 hk, removeEmptyPDivList_pres_sf t hf.2⟩

end

mutual

theorem removeEmptyPDiv_pres_cf : ∀ (h k : Html), commentFree h = true →
    removeEmptyPDiv h = some k → commentFree k = true
  | .text s, k, _, hk => by
    simp only [removeEmptyPDiv, Option.some.injEq] at hk
    subst hk
    rfl
  | .comment s, k, hc, _ => by simp [commentFree] at hc
  | .elem tag attrs cs, k, hc, hk => by
    simp only [removeEmptyPDiv] at hk
    by_cases hcond : (tag = str "p" ∨ tag = str "div") ∧ goTrim (goTextList cs) = []
    · rw [if_pos hcond] at hk
      exact absurd hk (by simp)
    · rw [if_neg hcond] at hk
      obtain rfl := Option.some.inj hk
      simp only [commentFree] at hc ⊢
      exact removeEmptyPDivList_pres_cf cs hc

theorem removeEmptyPDivList_pres_cf : ∀ ns : List Html, commentFreeList ns = true →
    commentFreeList (removeEmptyPDivList ns) = true
  | [], _ => rfl
  | h :: t, hc => by
    simp only [commentFreeList, Bool.and_eq_true] at hc
    simp only [removeEmptyPDivList]
    cases hk : removeEmptyPDiv h with
    | none => exact removeEmptyPDivList_pres_cf t hc.2
    | some k =>
      simp only [commentFreeList, Bool.and_eq_true]
      exact ⟨removeEmptyPDiv_pres_cf h k hc.1 hk, removeEmptyPDivList_pres_cf t hc.2⟩

end

/-- Text of an optional node (nothing for a removed node). -/
def optText (o : Option Html) : List Char :=
  match o with
  | some k => goText k
  | none => []

mutual

theorem removeEmptyPDiv_filter : ∀ h : Html,
    (optText (removeEmptyPDiv h)).filter (fun c => !goIsSpace c) =
      (goText h).filter (fun c => !goIsSpace c)
  | .text s => rfl
  | .comment s => rfl
  | .elem tag attrs cs => by
    simp only [removeEmptyPDiv]
    by_cases hcond : (tag = str "p" ∨ tag = str "div") ∧ goTrim (goTextList cs) = []
    · rw [if_pos hcond]
      have hnil : (goTextList cs).filter (fun c => !goIsSpace c) = [] :=
        (goTrim_eq_nil_filter (goTextList cs)).mp hcond.2
      simp [optText, goText, hnil]
    · rw [if_neg hcond]
      simp only [optText, goText]
      exact removeEmptyPDivList_filter cs

theorem removeEmptyPDivList_filter : ∀ ns : List Html,
    (goTextList (removeEmptyPDivList ns)).filter (fun c => !goIsSpace c) =
      (goTextList ns).filter (fun c => !goIsSpace c)
  | [] => rfl
  | h :: t => by
    have hnode := removeEmptyPDiv_filter h
    simp only [removeEmptyPDivList]
    cases hk : removeEmptyPDiv h with
    | none =>
      rw [hk] at hnode
      simp only [optText, List.filter_nil] at hnode
      simp only [goTextList, List.filter_append, ← hnode, List.nil_append]
      exact removeEmptyPDivList_filter t
    | some k =>
      rw [hk] at hnode
      simp only [optText] at hnode
      simp only [goTextList, List.filter_append, hnode, removeEmptyPDivList_filter t]

end

mutual

theorem removeEmptyPDiv_some_clean : ∀ (h k : Html),
    removeEmptyPDiv h = some k → noEmptyPD k = true
  | .text s, k, hk => by
    simp only [removeEmptyPDiv, Option.some.injEq] at hk
    subst hk
    rfl
  | .comment s, k, hk => by
    simp only [removeEmptyPDiv, Option.some.injEq] at hk
    subst hk
    rfl
  | .elem tag attrs cs, k, hk => by
    simp only [removeEmptyPDiv] at hk
    by_cases hcond : (tag = str "p" ∨ tag = str "div") ∧ goTrim (goTextList cs) = []
    · rw [if_pos hcond] at hk
      exact absurd hk (by simp)
    · rw [if_neg hcond] at hk
      obtain rfl := Option.some.inj hk
      simp only [noEmptyPD]
      have hcond2 : ¬ ((tag = str "p" ∨ tag = str "div") ∧
          goTrim (goTextList (removeEmptyPDivList cs)) = []) := by
        rintro ⟨hpd, hnil⟩
        apply hcond
        refine ⟨hpd, ?_⟩
        have h1 := (goTrim_eq_nil_filter _).mp hnil
        rw [removeEmptyPDivList_filter cs] at h1
        exact (goTrim_eq_nil_filter _).mpr h1
      rw [if_neg hcond2]
      exact removeEmptyPDivList_clean cs

theorem removeEmptyPDivList_clean : ∀ ns : List Html,
    noEmptyPDList (removeEmptyPDivList ns) = true
  | [] => rfl
  | h :: t => by
    simp only [removeEmptyPDivList]
    cases hk : removeEmptyPDiv h with
    | none => exact removeEmptyPDivList_clean t
    | some k =>
      simp only [noEmptyPDList, Bool.and_eq_true]
      exact ⟨removeEmptyPDiv_some_clean h k hk, removeEmptyPDivList_clean t⟩

end

mutual

theorem removeEmptyPDiv_id : ∀ h : Html, noEmptyPD h = true → removeEmptyPDiv h = some h
  | .text s, _ => rfl
  | .comment s, _ => rfl
  | .elem tag attrs cs, hc => by
    simp only [noEmptyPD] at hc
    by_cases hcond : (tag = str "p" ∨ tag = str "div") ∧ goTrim (goTextList cs) = []
    · rw [if_pos hcond] at hc
      exact absurd hc (by simp)
    · rw [if_neg hcond] at hc
      simp only [removeEmptyPDiv, if_neg hcond, removeEmptyPDivList_id cs hc]

theorem removeEmptyPDivList_id : ∀ ns : List Html,
    noEmptyPDList ns = true → removeEmptyPDivList ns = ns
  | [], _ => rfl
  | h :: t, hc => by
    simp only [noEmptyPDList, Bool.and_eq_true] at hc
    simp only [removeEmptyPDivList, removeEmptyPDiv_id h hc.1]
    rw [removeEmptyPDivList_id t hc.2]

end

/-- C8: the HTML cleaner is idempotent: cleaning an already-cleaned
document changes nothing.  After one pass the document has no scripts, no
comments and no whitespace-only p/div elements, and each removal pass is
the identity on documents with its property. -/
theorem claim_C8_cleanHTML_idempotent (doc : List Html) :
    cleanHTML (cleanHTML doc) = cleanHTML doc := by
  have hS : scriptFreeList (cleanHTML doc) = true :=
    removeEmptyPDivList_pres_sf _
      (removeCommentsList_pres_sf _ (removeScriptsList_free doc))
  have hC : commentFreeList (cleanHTML doc) = true :=
    removeEmptyPDivList_pres_cf _ (removeCommentsList_cf (removeScriptsList doc))
  have hE : noEmptyPDList (cleanHTML doc) = true :=
    removeEmptyPDivList_clean (removeCommentsList (removeScriptsList doc))
  rw [show cleanHTML (cleanHTML doc) =
    removeEmptyPDivList (removeCommentsList (removeScriptsList (cleanHTML doc))) from rfl]
  rw [removeScriptsList_id _ hS, removeCommentsList_id _ hC, removeEmptyPDivList_id _ hE]

/-- C3 witness: the amended statement at the C3 example run. -/
theorem claim_C3_textContent_fixed_witness :
    ∃ r, exC3Run = .ok r ∧
      r.TextContent = CleanNewlines exC3Article.TextContent ∧
      r.Content = (if exC3Opts.RemoveAds then removeAds else id)
        ((if exC3Opts.CleanHTML then cleanHTML else id) exC3Article.Content) :=
  claim_C3_textContent_fixed (fun _ => .ok exC3Article) (fun _ => none)
    (str "x") (str "u") exC3Opts exC3Article (by decide) rfl

end Scrpr
